import Mathlib

/-!
Huffman tree construction, code generation and size accounting.

A shallow embedding of `treeHuffmann18_06.cpp`.

* `wchar_t` values are natural numbers, a `std::wstring` is a list of them.
* A value of type `node*` is a term of `tree.node`: either `nullptr` or a
  heap cell holding `value`, `frequency`, `left` and `right`.
* `int` is 32 bits wide.  Signed overflow, which C++ leaves undefined, is
  taken to wrap in two's complement (`int_wrap`), as the common compilers
  make it do.  `size_t` is 64 bits wide and its arithmetic is modulo `2 ^ 64`.
* `std::priority_queue` is a library type: the development is parametric in
  an implementation (`priority_queue`) that satisfies the container's
  contract, stated over the multiset of queued elements.  The comparator is
  the program's `compare`.
* `std::iswprint` depends on the locale and is a parameter `iswprint`.
* A `double` is a finite value, a signed infinity or a NaN (`double`); only the
  division and the multiplication of the ratio computation are modelled.
* `std::unordered_map<wchar_t, std::wstring>` is an association list with
  unique keys; iteration order is never observed by the modelled code.
-/

namespace tree

/-- Wide characters are represented by their numeric value. -/
abbrev wchar_t := Nat

/-- A `std::wstring`. -/
abbrev wstring := List wchar_t

/-- The constant `UNICODE_RANGE`. -/
def UNICODE_RANGE : Nat := 65536

/-- Reduction of a mathematical integer to the 32-bit `int` range. -/
def int_wrap (x : Int) : Int := (x + 2 ^ 31) % 2 ^ 32 - 2 ^ 31

/-- Values of type `node*`: the null pointer, or a pointer to a cell with the
four fields of `struct node`. -/
inductive node where
  | nullptr : node
  | mk (value : wchar_t) (frequency : Int) (left right : node) : node
deriving DecidableEq, Repr

namespace node

/-- Field `value` (reading through a null pointer is undefined; `0` here). -/
def value : node → wchar_t
  | nullptr => 0
  | mk v _ _ _ => v

/-- Field `frequency` (reading through a null pointer is undefined; `0` here). -/
def frequency : node → Int
  | nullptr => 0
  | mk _ f _ _ => f

/-- Field `left`. -/
def left : node → node
  | nullptr => nullptr
  | mk _ _ l _ => l

/-- Field `right`. -/
def right : node → node
  | nullptr => nullptr
  | mk _ _ _ r => r

/-- Assignment `p->left = l`. -/
def set_left : node → node → node
  | nullptr, _ => nullptr
  | mk v f _ r, l => mk v f l r

/-- Assignment `p->right = r`. -/
def set_right : node → node → node
  | nullptr, _ => nullptr
  | mk v f l _, r => mk v f l r

end node

/-- The functor `compare`: `l->frequency > r->frequency`. -/
def compare (l r : node) : Bool := decide (l.frequency > r.frequency)

/-- The function `create_node`. -/
def create_node (value : wchar_t) (frequency : Int) : node :=
  node.mk value frequency node.nullptr node.nullptr

/-- An implementation of `std::priority_queue<node*, std::vector<node*>, compare>`
together with the container's contract: `contents` is the multiset of queued
pointers, `top` returns a queued element that `compare` places before no other
queued element (a largest element for the ordering `compare`, that is, one of
least frequency), and `pop` removes that element. -/
structure priority_queue where
  /-- Container states. -/
  Q : Type
  /-- The default-constructed queue. -/
  init : Q
  /-- Member `push`. -/
  push : Q → node → Q
  /-- Member `top`. -/
  top : Q → node
  /-- Member `pop`. -/
  pop : Q → Q
  /-- Member `size`. -/
  size : Q → Nat
  /-- The queued elements. -/
  contents : Q → Multiset node
  contents_init : contents init = 0
  contents_push : ∀ q x, contents (push q x) = x ::ₘ contents q
  size_eq : ∀ q, size q = Multiset.card (contents q)
  top_mem : ∀ q, contents q ≠ 0 → top q ∈ contents q
  top_first : ∀ q, ∀ x ∈ contents q, compare (top q) x = false
  contents_pop : ∀ q, contents q ≠ 0 → contents (pop q) = (contents q).erase (top q)

/-- First loop of `build_huffman_tree`: one leaf per index `i` of the table with
`frequencies[i] != 0 && std::iswprint(i)`, pushed in increasing index order. -/
def push_leaves (pq : priority_queue) (iswprint : wchar_t → Bool) (frequencies : Nat → Int) :
    List Nat → pq.Q → pq.Q
  | [], q => q
  | i :: is, q =>
    if frequencies i ≠ 0 ∧ iswprint i = true then
      push_leaves pq iswprint frequencies is (pq.push q (create_node i (frequencies i)))
    else
      push_leaves pq iswprint frequencies is q

/-- Body of the second loop of `build_huffman_tree`. -/
def merge_step (pq : priority_queue) (q : pq.Q) : pq.Q :=
  let left := pq.top q
  let q1 := pq.pop q
  let right := pq.top q1
  let q2 := pq.pop q1
  let new_node := create_node 0 (int_wrap (left.frequency + right.frequency))
  let new_node := new_node.set_left left
  let new_node := new_node.set_right right
  pq.push q2 new_node

/-- The loop `while (pq.size() > 1)`, with an explicit bound on the number of
iterations. -/
def merge_loop (pq : priority_queue) : Nat → pq.Q → pq.Q
  | 0, q => q
  | fuel + 1, q => if pq.size q > 1 then merge_loop pq fuel (merge_step pq q) else q

/-- The function `build_huffman_tree`.  Each iteration of the second loop
shrinks the queue by one element, so `size` iterations are enough for it to
exit (`merge_loop_exits`).  The test `pq.empty()` is `pq.size() == 0`. -/
def build_huffman_tree (pq : priority_queue) (iswprint : wchar_t → Bool)
    (frequencies : Nat → Int) : node :=
  let q := push_leaves pq iswprint frequencies (List.range UNICODE_RANGE) pq.init
  let q := merge_loop pq (pq.size q) q
  if pq.size q = 0 then node.nullptr else pq.top q

/-- A `std::unordered_map<wchar_t, std::wstring>`. -/
abbrev unordered_map := List (wchar_t × wstring)

/-- Member `find` followed by the test against `end()`, and `at`. -/
def unordered_map.find (codes : unordered_map) (key : wchar_t) : Option wstring :=
  match codes with
  | [] => none
  | (k, v) :: rest => if k = key then some v else unordered_map.find rest key

/-- The assignment `codes[key] = v`: overwrite an existing entry, else insert. -/
def unordered_map.assign (codes : unordered_map) (key : wchar_t) (v : wstring) : unordered_map :=
  match codes with
  | [] => [(key, v)]
  | (k, w) :: rest =>
    if k = key then (k, v) :: rest else (k, w) :: unordered_map.assign rest key v

/-- The function `generate_codes`; `L"0"` is `[48]` and `L"1"` is `[49]`. -/
def generate_codes : node → wstring → unordered_map → unordered_map
  | node.nullptr, _, codes => codes
  | node.mk value _ left right, pfx, codes =>
    let codes :=
      if left = node.nullptr ∧ right = node.nullptr then codes.assign value pfx else codes
    let codes := generate_codes left (pfx ++ [48]) codes
    generate_codes right (pfx ++ [49]) codes

end tree

/-- The function `compress_file`. -/
def compress_file (text : tree.wstring) (huffman_codes : tree.unordered_map) : tree.wstring :=
  text.foldl
    (fun compressed_text ch =>
      match huffman_codes.find ch with
      | some code => compressed_text ++ code
      | none => compressed_text)
    []

/-- The counting loop of `main`: `cont[ch]++` and `text += ch` for every
character that passes `std::iswprint`.  The array has `UNICODE_RANGE` entries;
an access outside it is undefined behaviour and ends the run with `none`.
Returns the table and the retained text. -/
def count_loop (iswprint : tree.wchar_t → Bool) :
    List tree.wchar_t → (Nat → Int) × tree.wstring → Option ((Nat → Int) × tree.wstring)
  | [], st => some st
  | ch :: rest, (cont, text) =>
    if iswprint ch = true then
      if ch < tree.UNICODE_RANGE then
        count_loop iswprint rest
          (fun i => if i = ch then tree.int_wrap (cont i + 1) else cont i, text ++ [ch])
      else
        none
    else
      count_loop iswprint rest (cont, text)

/-- The computation `compressed_size_bytes = (compressed_size_bits + 7) / 8` in
`size_t` arithmetic. -/
def compressed_size_bytes (compressed_size_bits : Nat) : Nat :=
  ((compressed_size_bits + 7) % 2 ^ 64) / 8

/-- A priority queue kept as an unsorted vector: `top` scans for the first
element that `compare` places before no other, `pop` removes it. -/
def list_top : List tree.node → tree.node
  | [] => tree.node.nullptr
  | x :: xs => xs.foldl (fun best y => if tree.compare best y then y else best) x

/-- The vector-backed queue as an implementation of the container contract. -/
def list_queue : tree.priority_queue where
  Q := List tree.node
  init := []
  push := fun q x => q ++ [x]
  top := list_top
  pop := fun q => q.erase (list_top q)
  size := List.length
  contents := fun q => (q : Multiset tree.node)
  contents_init := rfl
  contents_push := by
    intro q x
    show ((q ++ [x] : List tree.node) : Multiset tree.node) = x ::ₘ (q : Multiset tree.node)
    rw [Multiset.cons_coe]
    exact Multiset.coe_eq_coe.2 (List.perm_append_singleton x q)
  size_eq := by intro q; simp
  top_mem := by
    have key : ∀ (xs : List tree.node) (x : tree.node),
        xs.foldl (fun best y => if tree.compare best y then y else best) x ∈ x :: xs := by
      intro xs
      induction xs with
      | nil => intro x; simp
      | cons y ys ih =>
        intro x
        simp only [List.foldl_cons]
        have h := ih (if tree.compare x y then y else x)
        split_ifs at h ⊢ with hc
        · exact List.mem_cons_of_mem _ h
        · rcases List.mem_cons.1 h with h | h
          · rw [h]; simp
          · exact List.mem_cons_of_mem _ (List.mem_cons_of_mem _ h)
    intro q hq
    cases q with
    | nil => simp at hq
    | cons x xs => exact Multiset.mem_coe.2 (key xs x)
  top_first := by
    have key : ∀ (xs : List tree.node) (x : tree.node),
        (xs.foldl (fun best y => if tree.compare best y then y else best) x).frequency
          ≤ x.frequency ∧
        ∀ y ∈ xs, (xs.foldl (fun best y => if tree.compare best y then y else best) x).frequency
          ≤ y.frequency := by
      intro xs
      induction xs with
      | nil => intro x; simp
      | cons y ys ih =>
        intro x
        simp only [List.foldl_cons]
        have h := ih (if tree.compare x y then y else x)
        by_cases hc : tree.compare x y = true
        · simp only [hc, if_true] at h ⊢
          have hxy : y.frequency < x.frequency := by simpa [tree.compare] using hc
          refine ⟨by linarith [h.1], ?_⟩
          intro z hz
          rcases List.mem_cons.1 hz with rfl | hz
          · exact h.1
          · exact h.2 z hz
        · simp only [hc] at h ⊢
          have hxy : x.frequency ≤ y.frequency := by simpa [tree.compare] using hc
          refine ⟨h.1, ?_⟩
          intro z hz
          rcases List.mem_cons.1 hz with rfl | hz
          · exact le_trans h.1 hxy
          · exact h.2 z hz
    intro q y hy
    cases q with
    | nil => simp at hy
    | cons x xs =>
      have h := key xs x
      have hy2 : y ∈ x :: xs := Multiset.mem_coe.1 hy
      simp only [tree.compare, list_top, decide_eq_false_iff_not, not_lt, gt_iff_lt]
      rcases List.mem_cons.1 hy2 with rfl | hy2
      · exact h.1
      · exact h.2 y hy2
  contents_pop := by
    intro q _
    simp

namespace tree

/-- The leaf test of `generate_codes`: both children are null. -/
def is_leaf : node → Bool
  | node.nullptr => false
  | node.mk _ _ l r => decide (l = node.nullptr ∧ r = node.nullptr)

/-- The `(value, frequency)` pairs of the leaves of a tree, left to right. -/
def leaves : node → List (wchar_t × Int)
  | node.nullptr => []
  | node.mk v f l r =>
    (if l = node.nullptr ∧ r = node.nullptr then [(v, f)] else []) ++ leaves l ++ leaves r

/-- The symbols held by the leaves of a tree, left to right. -/
def leaf_symbols : node → List wchar_t
  | node.nullptr => []
  | node.mk v _ l r =>
    (if l = node.nullptr ∧ r = node.nullptr then [v] else []) ++ leaf_symbols l ++ leaf_symbols r

/-- The number of nodes with two null children. -/
def leaf_count : node → Nat
  | node.nullptr => 0
  | node.mk _ _ l r =>
    (if l = node.nullptr ∧ r = node.nullptr then 1 else 0) + leaf_count l + leaf_count r

/-- The number of nodes with at least one child. -/
def internal_count : node → Nat
  | node.nullptr => 0
  | node.mk _ _ l r =>
    (if l = node.nullptr ∧ r = node.nullptr then 0 else 1) + internal_count l + internal_count r

/-- Root-to-leaf paths: `leaf_at t p s` says that following `p` from the root
of `t`, with `48` (the character `0`) for a left descent and `49` (the
character `1`) for a right descent, ends in a leaf holding the symbol `s`. -/
inductive leaf_at : node → wstring → wchar_t → Prop where
  | here (v : wchar_t) (f : Int) : leaf_at (node.mk v f node.nullptr node.nullptr) [] v
  | go_left (v : wchar_t) (f : Int) (l r : node) (p : wstring) (s : wchar_t) :
      leaf_at l p s → leaf_at (node.mk v f l r) (48 :: p) s
  | go_right (v : wchar_t) (f : Int) (l r : node) (p : wstring) (s : wchar_t) :
      leaf_at r p s → leaf_at (node.mk v f l r) (49 :: p) s

/-- The leaves of a tree with the path to each, left to right, every path
prepended with `pfx`. -/
def leaf_paths : node → wstring → List (wchar_t × wstring)
  | node.nullptr, _ => []
  | node.mk v _ l r, pfx =>
    (if l = node.nullptr ∧ r = node.nullptr then [(v, pfx)] else [])
      ++ leaf_paths l (pfx ++ [48]) ++ leaf_paths r (pfx ++ [49])

/-- The indices for which the first loop of `build_huffman_tree` pushes a leaf. -/
def symbols (iswprint : wchar_t → Bool) (frequencies : Nat → Int) : List Nat :=
  (List.range UNICODE_RANGE).filter (fun i => decide (frequencies i ≠ 0 ∧ iswprint i = true))

/-- The code table of a frequency table: `generate_codes` on the built tree,
started as in `main` with the empty prefix and the empty map. -/
def huffman_codes (pq : priority_queue) (iswprint : wchar_t → Bool)
    (frequencies : Nat → Int) : unordered_map :=
  generate_codes (build_huffman_tree pq iswprint frequencies) [] []

/-- The entry of a symbol in a code table, as read by `at` (the empty string
stands for a missing key). -/
def code_of (codes : unordered_map) (s : wchar_t) : wstring :=
  (codes.find s).getD []

/-- One iteration of the merge loop, seen on the multiset of queued trees: two
elements `l`, `r` leave, `l` of least frequency among all and `r` of least
frequency among the rest, and the node joining them enters. -/
def merge_of (M M' : Multiset node) : Prop :=
  ∃ l r, l ∈ M ∧ r ∈ M.erase l ∧ (∀ x ∈ M, l.frequency ≤ x.frequency) ∧
    (∀ x ∈ M.erase l, r.frequency ≤ x.frequency) ∧
    M' = node.mk 0 (int_wrap (l.frequency + r.frequency)) l r ::ₘ (M.erase l).erase r

/-- The shape of the nodes made by `build_huffman_tree`: a leaf made by
`create_node` in the first loop, or a node made in the merge loop, which has the
value `0` and two children of that shape. -/
inductive proper : node → Prop where
  | leaf (v : wchar_t) (f : Int) : proper (node.mk v f node.nullptr node.nullptr)
  | internal (f : Int) (l r : node) : proper l → proper r → proper (node.mk 0 f l r)

/-- The leaves of all queued trees together. -/
def queued_leaves (M : Multiset node) : Multiset (wchar_t × Int) :=
  (M.map (fun t => (leaves t : Multiset (wchar_t × Int)))).sum

/-- Invariant of the merge loop: every queued tree is proper, and the leaves of
the queued trees are the leaves pushed by the first loop. -/
def queue_ok (iswprint : wchar_t → Bool) (frequencies : Nat → Int) (M : Multiset node) : Prop :=
  (∀ t ∈ M, proper t) ∧
    queued_leaves M =
      (((symbols iswprint frequencies).map (fun i => (i, frequencies i)) : List (wchar_t × Int))
        : Multiset (wchar_t × Int))

end tree

/-! ### Concrete inputs used to instantiate the theorems -/

/-- The printable characters of the "C" locale: the ASCII range `0x20 .. 0x7e`. -/
def ascii_print : tree.wchar_t → Bool := fun c => decide (32 ≤ c ∧ c < 127)

/-- The frequency table of the text `aaabbc`. -/
def aaabbc_table : Nat → Int :=
  fun i => if i = 97 then 3 else if i = 98 then 2 else if i = 99 then 1 else 0

/-- The text `aaabbc`. -/
def aaabbc : tree.wstring := [97, 97, 97, 98, 98, 99]

/-- The tree built for `aaabbc` when ties go to the element queued first. -/
def aaabbc_tree_node : tree.node :=
  tree.node.mk 0 6 (tree.node.mk 97 3 tree.node.nullptr tree.node.nullptr)
    (tree.node.mk 0 3 (tree.node.mk 99 1 tree.node.nullptr tree.node.nullptr)
      (tree.node.mk 98 2 tree.node.nullptr tree.node.nullptr))

/-- A table with the single symbol `a`, counted five times. -/
def single_table : Nat → Int := fun i => if i = 97 then 5 else 0

/-- The table of the empty text. -/
def empty_table : Nat → Int := fun _ => 0

/-- The weighted code length of a code assignment over a list of symbols: the
sum over the symbols `s` of `frequencies s * length (code s)`. -/
def weighted_code_length (frequencies : Nat → Int) (code : tree.wchar_t → tree.wstring)
    (syms : List tree.wchar_t) : Int :=
  (syms.map (fun s => frequencies s * ((code s).length : Int))).sum

/-- A text of `2 ^ 31` letters `a` followed by one `b`. -/
def long_text : tree.wstring := List.replicate (2 ^ 31) 97 ++ [98]

/-- The table that the counting loop leaves for `long_text`: the count of `a`
has wrapped to the least `int`. -/
def long_table : Nat → Int := fun i => if i = 97 then -2147483648 else if i = 98 then 1 else 0


/-! ### Depth profiles of binary trees and weighted assignments -/

/-- The lists of leaf depths of binary trees with two children at every
internal node, in any order: a single leaf has depth `0`; joining two trees
under a new root puts every leaf one level deeper. -/
inductive realizable : List Nat → Prop where
  | single : realizable [0]
  | join (a b : List Nat) : realizable a → realizable b →
      realizable ((a ++ b).map (fun d => d + 1))
  | perm (a b : List Nat) : a.Perm b → realizable a → realizable b

/-- The cost of an assignment of depths to weights: the sum of
`weight * depth`. -/
def pcost (P : List (Int × Nat)) : Int :=
  (P.map (fun e => e.1 * (e.2 : Int))).sum

/-- The conclusion of the sibling lemma: two leaves of greatest depth can be
replaced by one leaf a level higher. -/
def has_deepest_pair (D : List Nat) : Prop :=
  ∃ m rest, D.Perm ((m + 1) :: (m + 1) :: rest) ∧ (∀ d ∈ D, d ≤ m + 1) ∧ realizable (m :: rest)

/-- The cost of a list of weighted code words: the sum of `weight * length`. -/
def ccost (L : List (Int × tree.wstring)) : Int :=
  (L.map (fun e => e.1 * (e.2.length : Int))).sum

/-- The total length of a list of weighted code words. -/
def total_length (L : List (Int × tree.wstring)) : Nat :=
  (L.map (fun e => e.2.length)).sum

/-- Removal of the first character of every code word. -/
def strip (L : List (Int × tree.wstring)) : List (Int × tree.wstring) :=
  L.map (fun e => (e.1, e.2.tail))

/-- Two code words neither of which is a prefix of the other. -/
def prefix_free (x y : tree.wstring) : Prop := ¬ x <+: y ∧ ¬ y <+: x

namespace tree

/-- The weight of a tree: the sum of the frequencies of its leaves. -/
def weight : node → Int
  | node.nullptr => 0
  | node.mk _ f l r =>
    (if l = node.nullptr ∧ r = node.nullptr then f else 0) + weight l + weight r

/-- The sum over the leaves of a tree of `frequency * (d + depth)`. -/
def cost_at : node → Nat → Int
  | node.nullptr, _ => 0
  | node.mk _ f l r, d =>
    (if l = node.nullptr ∧ r = node.nullptr then f * (d : Int) else 0)
      + cost_at l (d + 1) + cost_at r (d + 1)

/-- The cost of a tree: the sum over its leaves of `frequency * depth`. -/
def cost (t : node) : Int := cost_at t 0

/-- The leaves of a tree with frequency and path, left to right. -/
def leaf_info : node → wstring → List (wchar_t × Int × wstring)
  | node.nullptr, _ => []
  | node.mk v f l r, pfx =>
    (if l = node.nullptr ∧ r = node.nullptr then [(v, f, pfx)] else [])
      ++ leaf_info l (pfx ++ [48]) ++ leaf_info r (pfx ++ [49])

/-- Invariant of the merge loop used for optimality, for a run without `int`
overflow: every queued tree is proper with a non-negative frequency field equal
to its weight, the frequencies add up to `total`, and some assignment of depths
to the queued frequencies, with the depth profile of a tree, completes the
queued trees at a total cost of at most `V`. -/
def optimal_inv (total V : Int) (M : Multiset node) : Prop :=
  (∀ t ∈ M, proper t ∧ t.frequency = weight t ∧ 0 ≤ t.frequency) ∧
  (M.map node.frequency).sum = total ∧
  ∃ P : List (Int × Nat), realizable (P.map Prod.snd) ∧
    ((P.map Prod.fst : List Int) : Multiset Int) = M.map node.frequency ∧
    (M.map cost).sum + pcost P ≤ V

end tree

namespace tree

/-- The queues that one iteration of the merge loop can leave when the queue
holds the nodes of `L`: the first element removed is any node of least
frequency, the second any node of least frequency among the rest. -/
def merge_candidates (L : List node) : List (List node) :=
  (L.filter (fun l => L.all (fun x => decide (l.frequency ≤ x.frequency)))).flatMap
    (fun l =>
      ((L.erase l).filter
        (fun r => (L.erase l).all (fun x => decide (r.frequency ≤ x.frequency)))).map
        (fun r => node.mk 0 (int_wrap (l.frequency + r.frequency)) l r :: (L.erase l).erase r))

/-- The roots that the merge loop can leave in at most `fuel` iterations from a
queue holding the nodes of `L`, over all the ways the queue may break ties. -/
def possible_roots : Nat → List node → List node
  | 0, L => L
  | fuel + 1, L =>
    if 1 < L.length then (merge_candidates L).flatMap (possible_roots fuel) else L

end tree

/-- A table of four symbols whose counts are representable but add up to more
than the greatest `int`. -/
def big_table : Nat → Int :=
  fun i => if i = 97 then 1073741824 else if i = 98 then 1073741824
    else if i = 99 then 1073741825 else if i = 100 then 1073741825 else 0

/-- The code that gives two bits to each of the letters `a`, `b`, `c`, `d`. -/
def two_bit_code : tree.wchar_t → tree.wstring :=
  fun s => if s = 97 then [48, 48] else if s = 98 then [48, 49]
    else if s = 99 then [49, 48] else [49, 49]

/-! ### Compression ratio -/

/-- Values of type `double`, as far as the ratio computation needs them: a
finite value, an infinity with its sign, or a NaN.  Finite values are kept
exact (rounding is not modelled) and the only zero is `+0.0`, the zero that the
conversion of an integer yields. -/
inductive double where
  | finite (x : ℚ) : double
  | inf (negative : Bool) : double
  | nan : double
deriving DecidableEq

namespace double

/-- IEEE 754 division. -/
def div : double → double → double
  | nan, _ => nan
  | _, nan => nan
  | inf _, inf _ => nan
  | inf s, finite y => inf (xor s (decide (y < 0)))
  | finite _, inf _ => finite 0
  | finite x, finite y =>
    if y = 0 then (if x = 0 then nan else inf (decide (x < 0))) else finite (x / y)

/-- IEEE 754 multiplication. -/
def mul : double → double → double
  | nan, _ => nan
  | _, nan => nan
  | inf s, inf s' => inf (xor s s')
  | inf s, finite y => if y = 0 then nan else inf (xor s (decide (y < 0)))
  | finite x, inf s => if x = 0 then nan else inf (xor s (decide (x < 0)))
  | finite x, finite y => finite (x * y)

/-- A value that is neither an infinity nor a NaN. -/
def is_finite : double → Bool
  | finite _ => true
  | _ => false

end double

/-- The value `comparacao` of `main`:
`static_cast<double>(compressed_size_bytes) / tamanho_original * 100`.  It is
streamed to `std::wcout` as computed. -/
def comparacao (compressed_size_bytes : Nat) (tamanho_original : Int) : double :=
  double.mul
    (double.div (double.finite (compressed_size_bytes : ℚ)) (double.finite (tamanho_original : ℚ)))
    (double.finite 100)

/-- The value `comparison` of `generate_csv`:
`static_cast<double>(compressed_size) / original_size * 100`.  It is streamed to
the CSV file as computed. -/
def comparison (original_size compressed_size : Int) : double :=
  double.mul
    (double.div (double.finite (compressed_size : ℚ)) (double.finite (original_size : ℚ)))
    (double.finite 100)

/-! ### Further observations and inputs -/

/-- The number of characters of a text that have no code in a table. -/
def dropped_count (text : tree.wstring) (codes : tree.unordered_map) : Nat :=
  (text.filter (fun ch => (codes.find ch).isNone)).length

/-- A printable predicate that accepts, besides the printable ASCII characters,
the code point `U+1F600`, as the `en_US.UTF-8` locale set by `main` does. -/
def wide_print : tree.wchar_t → Bool := fun c => decide (32 ≤ c ∧ c < 127) || decide (c = 128512)

namespace tree

/-- The weight invariant, checked at every node: a leaf holds the table count
of its symbol; a node with a child holds the value `0` and the `int` sum of the
frequency fields of its two children. -/
def weight_invariant (frequencies : Nat → Int) : node → Bool
  | node.nullptr => true
  | node.mk v f l r =>
    if l = node.nullptr ∧ r = node.nullptr then decide (f = frequencies v)
    else decide (v = 0) && decide (f = int_wrap (l.frequency + r.frequency))
      && weight_invariant frequencies l && weight_invariant frequencies r

/-- At every node with a child, the frequency field of the left child is at
most that of the right child. -/
def children_ordered : node → Bool
  | node.nullptr => true
  | node.mk _ _ l r =>
    if l = node.nullptr ∧ r = node.nullptr then true
    else decide (l.frequency ≤ r.frequency) && children_ordered l && children_ordered r

/-- The number of iterations that `merge_loop` performs. -/
def merge_loop_count (pq : priority_queue) : Nat → pq.Q → Nat
  | 0, _ => 0
  | fuel + 1, q => if pq.size q > 1 then merge_loop_count pq fuel (merge_step pq q) + 1 else 0

/-- The depth of a tree: the greatest number of descents from the root to a
leaf. -/
def depth : node → Nat
  | node.nullptr => 0
  | node.mk _ _ l r =>
    if l = node.nullptr ∧ r = node.nullptr then 0 else max (depth l) (depth r) + 1

/-- The depths of the leaves of a tree, left to right. -/
def leaf_depths : node → List Nat
  | node.nullptr => []
  | node.mk _ _ l r =>
    (if l = node.nullptr ∧ r = node.nullptr then [0] else [])
      ++ (leaf_depths l ++ leaf_depths r).map (fun d => d + 1)

/-- Every node has either no child or two children. -/
def full : node → Bool
  | node.nullptr => true
  | node.mk _ _ l r =>
    decide (l = node.nullptr ∧ r = node.nullptr) ||
      (decide (l ≠ node.nullptr ∧ r ≠ node.nullptr) && full l && full r)

end tree

/-- A table of five symbols with the pairwise distinct counts 1, 2, 4, 8, 16. -/
def skew_table : Nat → Int :=
  fun i => if i = 97 then 1 else if i = 98 then 2 else if i = 99 then 4
    else if i = 100 then 8 else if i = 101 then 16 else 0

/-- A table of five symbols: `a` counted 10 times and four symbols counted a
little more than `2 ^ 30` times each. -/
def heavy_table : Nat → Int :=
  fun i => if i = 97 then 10 else if i = 98 then 1073741824 else if i = 99 then 1073741825
    else if i = 100 then 1073741826 else if i = 101 then 1073741827 else 0

/-! ## Code generation -/

namespace tree

theorem find_eq_none_of_not_mem (codes : unordered_map) (s : wchar_t)
    (h : s ∉ codes.map Prod.fst) : codes.find s = none := by
  induction codes with
  | nil => rfl
  | cons e rest ih =>
    obtain ⟨k, v⟩ := e
    simp only [List.map_cons, List.mem_cons, not_or] at h
    have hk : ¬ k = s := fun hks => h.1 hks.symm
    simp only [unordered_map.find, hk, if_false]
    exact ih h.2

theorem find_eq_some_iff (codes : unordered_map) (hnd : (codes.map Prod.fst).Nodup)
    (s : wchar_t) (c : wstring) : codes.find s = some c ↔ (s, c) ∈ codes := by
  induction codes with
  | nil => simp [unordered_map.find]
  | cons e rest ih =>
    obtain ⟨k, v⟩ := e
    simp only [List.map_cons, List.nodup_cons] at hnd
    by_cases hk : k = s
    · subst hk
      simp only [unordered_map.find, if_true, Option.some.injEq, List.mem_cons, Prod.mk.injEq,
        true_and]
      constructor
      · intro h; exact Or.inl h.symm
      · rintro (h | h)
        · exact h.symm
        · exact absurd (List.mem_map_of_mem Prod.fst h) hnd.1
    · simp only [unordered_map.find, hk, if_false, List.mem_cons, Prod.mk.injEq]
      rw [ih hnd.2]
      constructor
      · intro h; exact Or.inr h
      · rintro (h | h)
        · exact absurd h.1.symm hk
        · exact h

theorem find_isSome_iff (codes : unordered_map) (s : wchar_t) :
    (codes.find s).isSome = true ↔ s ∈ codes.map Prod.fst := by
  induction codes with
  | nil => simp [unordered_map.find]
  | cons e rest ih =>
    obtain ⟨k, v⟩ := e
    by_cases hk : k = s
    · simp [unordered_map.find, hk]
    · have hk2 : ¬ s = k := fun h => hk h.symm
      simp [unordered_map.find, hk, hk2, ih]

theorem assign_of_not_mem (codes : unordered_map) (s : wchar_t) (c : wstring)
    (h : s ∉ codes.map Prod.fst) : codes.assign s c = codes ++ [(s, c)] := by
  induction codes with
  | nil => rfl
  | cons e rest ih =>
    obtain ⟨k, v⟩ := e
    simp only [List.map_cons, List.mem_cons, not_or] at h
    have hk : ¬ k = s := fun hks => h.1 hks.symm
    simp only [unordered_map.assign, hk, if_false, List.cons_append]
    rw [ih h.2]

theorem leaf_paths_fst (t : node) (pfx : wstring) :
    (leaf_paths t pfx).map Prod.fst = leaf_symbols t := by
  induction t generalizing pfx with
  | nullptr => rfl
  | mk v f l r ihl ihr =>
    simp only [leaf_paths, leaf_symbols, List.map_append, ihl, ihr]
    split_ifs <;> rfl

theorem leaves_fst (t : node) : (leaves t).map Prod.fst = leaf_symbols t := by
  induction t with
  | nullptr => rfl
  | mk v f l r ihl ihr =>
    simp only [leaves, leaf_symbols, List.map_append, ihl, ihr]
    split_ifs <;> rfl

theorem leaf_count_eq (t : node) : leaf_count t = (leaf_symbols t).length := by
  induction t with
  | nullptr => rfl
  | mk v f l r ihl ihr =>
    simp only [leaf_count, leaf_symbols, List.length_append, ihl, ihr]
    split_ifs <;> rfl

/-- With pairwise distinct keys, `generate_codes` appends the leaf paths of the
tree to the map, left to right. -/
theorem generate_codes_eq (t : node) (pfx : wstring) (codes : unordered_map)
    (hnd : ((codes ++ leaf_paths t pfx).map Prod.fst).Nodup) :
    generate_codes t pfx codes = codes ++ leaf_paths t pfx := by
  induction t generalizing pfx codes with
  | nullptr => simp [generate_codes, leaf_paths]
  | mk v f l r ihl ihr =>
    by_cases hleaf : l = node.nullptr ∧ r = node.nullptr
    · obtain ⟨rfl, rfl⟩ := hleaf
      simp only [leaf_paths, and_self, if_true, List.append_nil, List.map_append, List.map_cons,
        List.map_nil] at hnd
      have hv : v ∉ codes.map Prod.fst := by
        intro hmem
        have := List.disjoint_of_nodup_append hnd hmem
        simp at this
      simp [generate_codes, leaf_paths, assign_of_not_mem codes v pfx hv]
    · simp only [leaf_paths, hleaf, if_false, List.nil_append] at hnd ⊢
      simp only [generate_codes, hleaf, if_false]
      rw [← List.append_assoc] at hnd
      have hl : ((codes ++ leaf_paths l (pfx ++ [48])).map Prod.fst).Nodup := by
        rw [List.map_append] at hnd
        exact (List.nodup_append.1 hnd).1
      rw [ihl (pfx ++ [48]) codes hl, ihr (pfx ++ [49]) _ hnd, List.append_assoc]

theorem mem_leaf_paths_iff (t : node) (pfx : wstring) (s : wchar_t) (c : wstring) :
    (s, c) ∈ leaf_paths t pfx ↔ ∃ p, c = pfx ++ p ∧ leaf_at t p s := by
  induction t generalizing pfx c with
  | nullptr =>
    simp only [leaf_paths, List.not_mem_nil, false_iff]
    rintro ⟨p, _, hp⟩
    cases hp
  | mk v f l r ihl ihr =>
    simp only [leaf_paths, List.mem_append, ihl, ihr]
    constructor
    · rintro ((h | ⟨p, rfl, hp⟩) | ⟨p, rfl, hp⟩)
      · split_ifs at h with hleaf
        · obtain ⟨rfl, rfl⟩ := hleaf
          simp only [List.mem_singleton, Prod.mk.injEq] at h
          obtain ⟨rfl, rfl⟩ := h
          exact ⟨[], by simp, leaf_at.here _ _⟩
        · simp at h
      · exact ⟨48 :: p, by simp, leaf_at.go_left _ _ _ _ _ _ hp⟩
      · exact ⟨49 :: p, by simp, leaf_at.go_right _ _ _ _ _ _ hp⟩
    · rintro ⟨p, rfl, hp⟩
      cases hp with
      | here => simp
      | go_left _ _ _ _ p2 _ h2 => exact Or.inl (Or.inr ⟨p2, by simp, h2⟩)
      | go_right _ _ _ _ p2 _ h2 => exact Or.inr ⟨p2, by simp, h2⟩

end tree

/-! ## The queue during `build_huffman_tree` -/

namespace tree

/-- The leaves pushed by the first loop, as nodes. -/
theorem contents_push_leaves (pq : priority_queue) (iswprint : wchar_t → Bool)
    (frequencies : Nat → Int) (is : List Nat) (q : pq.Q) :
    pq.contents (push_leaves pq iswprint frequencies is q) =
      pq.contents q +
        (((is.filter (fun i => decide (frequencies i ≠ 0 ∧ iswprint i = true))).map
          (fun i => create_node i (frequencies i)) : List node) : Multiset node) := by
  induction is generalizing q with
  | nil => simp [push_leaves]
  | cons i is ih =>
    by_cases hi : frequencies i ≠ 0 ∧ iswprint i = true
    · rw [push_leaves, if_pos hi, ih, pq.contents_push, List.filter_cons_of_pos (by simpa using hi),
        List.map_cons, ← Multiset.cons_coe, Multiset.cons_add, Multiset.add_cons]
    · rw [push_leaves, if_neg hi, ih, List.filter_cons_of_neg (by simpa using hi)]

/-- The queue after the first loop of `build_huffman_tree`. -/
theorem contents_initial (pq : priority_queue) (iswprint : wchar_t → Bool)
    (frequencies : Nat → Int) :
    pq.contents (push_leaves pq iswprint frequencies (List.range UNICODE_RANGE) pq.init) =
      (((symbols iswprint frequencies).map (fun i => create_node i (frequencies i)) : List node)
        : Multiset node) := by
  rw [contents_push_leaves, pq.contents_init, zero_add]
  rfl

theorem merge_step_spec (pq : priority_queue) (q : pq.Q) (h : 1 < pq.size q) :
    merge_of (pq.contents q) (pq.contents (merge_step pq q)) := by
  rw [pq.size_eq] at h
  have hne : pq.contents q ≠ 0 := by
    intro h0; rw [h0] at h; simp at h
  have hl := pq.top_mem q hne
  have hpop := pq.contents_pop q hne
  have hne1 : pq.contents (pq.pop q) ≠ 0 := by
    intro h0
    have hc : Multiset.card (pq.contents (pq.pop q)) = 0 := by rw [h0]; rfl
    rw [hpop] at hc
    have := Multiset.card_erase_add_one hl
    omega
  have hr := pq.top_mem (pq.pop q) hne1
  have hpop1 := pq.contents_pop (pq.pop q) hne1
  refine ⟨pq.top q, pq.top (pq.pop q), hl, ?_, ?_, ?_, ?_⟩
  · rw [← hpop]; exact hr
  · intro x hx
    have := pq.top_first q x hx
    simpa [compare] using this
  · intro x hx
    rw [← hpop] at hx
    have := pq.top_first (pq.pop q) x hx
    simpa [compare] using this
  · show pq.contents (pq.push (pq.pop (pq.pop q)) _) = _
    rw [pq.contents_push, hpop1, hpop]
    rfl

theorem merge_of_card (M M' : Multiset node) (h : merge_of M M') :
    Multiset.card M' + 1 = Multiset.card M := by
  obtain ⟨l, r, hl, hr, _, _, rfl⟩ := h
  have h1 := Multiset.card_erase_add_one hl
  have h2 := Multiset.card_erase_add_one hr
  rw [Multiset.card_cons]
  omega

/-- A property of the queued multiset that every merge preserves holds when the
loop ends. -/
theorem merge_loop_invariant (pq : priority_queue) (P : Multiset node → Prop)
    (hP : ∀ M M', P M → merge_of M M' → P M') (fuel : Nat) (q : pq.Q)
    (h : P (pq.contents q)) : P (pq.contents (merge_loop pq fuel q)) := by
  induction fuel generalizing q with
  | zero => exact h
  | succ n ih =>
    rw [merge_loop]
    split_ifs with hs
    · exact ih _ (hP _ _ h (merge_step_spec pq q hs))
    · exact h

/-- The loop has exited when the fuel given by `build_huffman_tree` is spent:
the queue holds one element if it was not empty, and is unchanged if it was. -/
theorem merge_loop_exits (pq : priority_queue) (fuel : Nat) (q : pq.Q)
    (hf : pq.size q ≤ fuel + 1) :
    pq.size (merge_loop pq fuel q) = min (pq.size q) 1 := by
  induction fuel generalizing q with
  | zero =>
    rw [merge_loop]
    omega
  | succ n ih =>
    rw [merge_loop]
    split_ifs with hs
    · have hc := merge_of_card _ _ (merge_step_spec pq q hs)
      rw [← pq.size_eq, ← pq.size_eq] at hc
      rw [ih _ (by omega)]
      omega
    · omega

theorem merge_loop_of_size_le_one (pq : priority_queue) (fuel : Nat) (q : pq.Q)
    (h : pq.size q ≤ 1) : merge_loop pq fuel q = q := by
  cases fuel with
  | zero => rfl
  | succ n => rw [merge_loop, if_neg (by omega)]

theorem top_of_singleton (pq : priority_queue) (q : pq.Q) (t : node)
    (h : pq.contents q = {t}) : pq.top q = t := by
  have hne : pq.contents q ≠ 0 := by rw [h]; simp
  have := pq.top_mem q hne
  rw [h, Multiset.mem_singleton] at this
  exact this

/-- What `build_huffman_tree` returns: the null pointer when no leaf was pushed,
and otherwise the single queued tree left by the merge loop, for which every
property preserved by merges and true of the pushed leaves holds. -/
theorem build_huffman_tree_spec (pq : priority_queue) (iswprint : wchar_t → Bool)
    (frequencies : Nat → Int) (P : Multiset node → Prop)
    (hP : ∀ M M', P M → merge_of M M' → P M')
    (h0 : P (((symbols iswprint frequencies).map (fun i => create_node i (frequencies i))
      : List node) : Multiset node)) :
    (symbols iswprint frequencies = [] →
      build_huffman_tree pq iswprint frequencies = node.nullptr) ∧
    (symbols iswprint frequencies ≠ [] →
      P {build_huffman_tree pq iswprint frequencies}) := by
  have hc := contents_initial pq iswprint frequencies
  have hsz := pq.size_eq (push_leaves pq iswprint frequencies (List.range UNICODE_RANGE) pq.init)
  rw [hc, Multiset.coe_card, List.length_map] at hsz
  have hex := merge_loop_exits pq _ _ (Nat.le_succ
    (pq.size (push_leaves pq iswprint frequencies (List.range UNICODE_RANGE) pq.init)))
  have hinv := merge_loop_invariant pq P hP
    (pq.size (push_leaves pq iswprint frequencies (List.range UNICODE_RANGE) pq.init))
    (push_leaves pq iswprint frequencies (List.range UNICODE_RANGE) pq.init) (by rw [hc]; exact h0)
  constructor
  · intro hs
    rw [hs, List.length_nil] at hsz
    simp only [build_huffman_tree]
    rw [hex, hsz]
    simp
  · intro hs
    have hpos : 0 < (symbols iswprint frequencies).length := List.length_pos.2 hs
    simp only [build_huffman_tree]
    rw [hex, if_neg (by omega)]
    have h1 : Multiset.card (pq.contents (merge_loop pq
        (pq.size (push_leaves pq iswprint frequencies (List.range UNICODE_RANGE) pq.init))
        (push_leaves pq iswprint frequencies (List.range UNICODE_RANGE) pq.init))) = 1 := by
      rw [← pq.size_eq, hex, hsz]; omega
    obtain ⟨a, ha⟩ := Multiset.card_eq_one.1 h1
    have hne : pq.contents (merge_loop pq
        (pq.size (push_leaves pq iswprint frequencies (List.range UNICODE_RANGE) pq.init))
        (push_leaves pq iswprint frequencies (List.range UNICODE_RANGE) pq.init)) ≠ 0 := by
      rw [ha]; simp
    have htop := pq.top_mem _ hne
    rw [ha, Multiset.mem_singleton] at htop
    rw [htop]
    rw [ha] at hinv
    exact hinv

end tree

/-! ## Shape of the built tree -/

namespace tree

theorem merge_of_decomp (M M' : Multiset node) (h : merge_of M M') :
    ∃ l r rest, M = l ::ₘ r ::ₘ rest ∧
      M' = node.mk 0 (int_wrap (l.frequency + r.frequency)) l r ::ₘ rest ∧
      (∀ x ∈ M, l.frequency ≤ x.frequency) ∧
      (∀ x ∈ r ::ₘ rest, r.frequency ≤ x.frequency) := by
  obtain ⟨l, r, hl, hr, hlmin, hrmin, rfl⟩ := h
  have h1 : M = l ::ₘ M.erase l := (Multiset.cons_erase hl).symm
  have h2 : M.erase l = r ::ₘ (M.erase l).erase r := (Multiset.cons_erase hr).symm
  refine ⟨l, r, (M.erase l).erase r, ?_, rfl, hlmin, ?_⟩
  · rw [← h2, ← h1]
  · rw [← h2]; exact hrmin

theorem proper_ne_nullptr (t : node) (h : proper t) : t ≠ node.nullptr := by
  cases h <;> simp

theorem leaves_internal (v : wchar_t) (f : Int) (l r : node) (hl : l ≠ node.nullptr) :
    leaves (node.mk v f l r) = leaves l ++ leaves r := by
  simp [leaves, hl]

theorem queue_ok_merge (iswprint : wchar_t → Bool) (frequencies : Nat → Int)
    (M M' : Multiset node) (h : queue_ok iswprint frequencies M) (hm : merge_of M M') :
    queue_ok iswprint frequencies M' := by
  obtain ⟨l, r, rest, rfl, rfl, -, -⟩ := merge_of_decomp M M' hm
  obtain ⟨hp, hs⟩ := h
  have hpl : proper l := hp l (by simp)
  have hpr : proper r := hp r (by simp)
  constructor
  · intro t ht
    rcases Multiset.mem_cons.1 ht with rfl | ht
    · exact proper.internal _ _ _ hpl hpr
    · exact hp t (by simp [ht])
  · rw [← hs]
    simp only [queued_leaves, Multiset.map_cons, Multiset.sum_cons]
    rw [leaves_internal _ _ _ _ (proper_ne_nullptr l hpl), ← Multiset.coe_add, add_assoc]

theorem queue_ok_initial (iswprint : wchar_t → Bool) (frequencies : Nat → Int) :
    queue_ok iswprint frequencies
      (((symbols iswprint frequencies).map (fun i => create_node i (frequencies i)) : List node)
        : Multiset node) := by
  constructor
  · intro t ht
    simp only [Multiset.mem_coe, List.mem_map] at ht
    obtain ⟨i, _, rfl⟩ := ht
    exact proper.leaf _ _
  · simp only [queued_leaves]
    induction symbols iswprint frequencies with
    | nil => simp
    | cons i is ih =>
      simp only [List.map_cons, ← Multiset.cons_coe, Multiset.map_cons, Multiset.sum_cons]
      rw [ih]
      simp [create_node, leaves]

theorem queued_leaves_singleton (t : node) :
    queued_leaves {t} = (leaves t : Multiset (wchar_t × Int)) := by
  simp [queued_leaves]

/-- The built tree: null for a table without symbols; otherwise a proper tree
whose leaves are, up to order, the pushed `(symbol, count)` pairs. -/
theorem build_huffman_tree_leaves (pq : priority_queue) (iswprint : wchar_t → Bool)
    (frequencies : Nat → Int) :
    (symbols iswprint frequencies = [] →
      build_huffman_tree pq iswprint frequencies = node.nullptr) ∧
    (symbols iswprint frequencies ≠ [] →
      proper (build_huffman_tree pq iswprint frequencies) ∧
      (leaves (build_huffman_tree pq iswprint frequencies)).Perm
        ((symbols iswprint frequencies).map (fun i => (i, frequencies i)))) := by
  have h := build_huffman_tree_spec pq iswprint frequencies (queue_ok iswprint frequencies)
    (queue_ok_merge iswprint frequencies) (queue_ok_initial iswprint frequencies)
  refine ⟨h.1, fun hs => ?_⟩
  obtain ⟨hp, hl⟩ := h.2 hs
  refine ⟨hp _ (Multiset.mem_singleton_self _), ?_⟩
  rw [queued_leaves_singleton] at hl
  exact Multiset.coe_eq_coe.1 hl

theorem leaves_perm (pq : priority_queue) (iswprint : wchar_t → Bool)
    (frequencies : Nat → Int) :
    (leaves (build_huffman_tree pq iswprint frequencies)).Perm
      ((symbols iswprint frequencies).map (fun i => (i, frequencies i))) := by
  by_cases hs : symbols iswprint frequencies = []
  · rw [(build_huffman_tree_leaves pq iswprint frequencies).1 hs, hs]
    exact List.Perm.refl _
  · exact ((build_huffman_tree_leaves pq iswprint frequencies).2 hs).2

theorem leaf_symbols_perm (pq : priority_queue) (iswprint : wchar_t → Bool)
    (frequencies : Nat → Int) :
    (leaf_symbols (build_huffman_tree pq iswprint frequencies)).Perm
      (symbols iswprint frequencies) := by
  have h := (leaves_perm pq iswprint frequencies).map Prod.fst
  rw [leaves_fst, List.map_map] at h
  have hid : (Prod.fst ∘ fun i => (i, frequencies i)) = (id : Nat → Nat) := rfl
  rw [hid, List.map_id] at h
  exact h

theorem symbols_nodup (iswprint : wchar_t → Bool) (frequencies : Nat → Int) :
    (symbols iswprint frequencies).Nodup := by
  unfold symbols
  exact List.Nodup.filter _ (List.nodup_range UNICODE_RANGE)

theorem mem_symbols (iswprint : wchar_t → Bool) (frequencies : Nat → Int) (i : Nat) :
    i ∈ symbols iswprint frequencies ↔
      i < UNICODE_RANGE ∧ frequencies i ≠ 0 ∧ iswprint i = true := by
  simp [symbols]

theorem leaf_symbols_nodup (pq : priority_queue) (iswprint : wchar_t → Bool)
    (frequencies : Nat → Int) :
    (leaf_symbols (build_huffman_tree pq iswprint frequencies)).Nodup :=
  (leaf_symbols_perm pq iswprint frequencies).nodup_iff.2 (symbols_nodup iswprint frequencies)

/-- The code table of a frequency table is the list of leaf paths of the built
tree. -/
theorem huffman_codes_eq (pq : priority_queue) (iswprint : wchar_t → Bool)
    (frequencies : Nat → Int) :
    huffman_codes pq iswprint frequencies =
      leaf_paths (build_huffman_tree pq iswprint frequencies) [] := by
  have h := generate_codes_eq (build_huffman_tree pq iswprint frequencies) [] []
    (by rw [List.nil_append, leaf_paths_fst]; exact leaf_symbols_nodup pq iswprint frequencies)
  simpa [huffman_codes] using h

end tree

/-! ## Evaluating the build on a concrete table -/

namespace tree

theorem push_leaves_eq_foldl (pq : priority_queue) (iswprint : wchar_t → Bool)
    (frequencies : Nat → Int) (is : List Nat) (q : pq.Q) :
    push_leaves pq iswprint frequencies is q =
      (is.filter (fun i => decide (frequencies i ≠ 0 ∧ iswprint i = true))).foldl
        (fun q i => pq.push q (create_node i (frequencies i))) q := by
  induction is generalizing q with
  | nil => rfl
  | cons i is ih =>
    by_cases hi : frequencies i ≠ 0 ∧ iswprint i = true
    · rw [push_leaves, if_pos hi, ih, List.filter_cons_of_pos (by simpa using hi), List.foldl_cons]
    · rw [push_leaves, if_neg hi, ih, List.filter_cons_of_neg (by simpa using hi)]

/-- The symbols of a table, from a sorted list of the indices that hold them. -/
theorem symbols_eq (iswprint : wchar_t → Bool) (frequencies : Nat → Int) (l : List Nat)
    (hs : l.Sorted (· < ·))
    (hl : ∀ i, i ∈ l ↔ i < UNICODE_RANGE ∧ frequencies i ≠ 0 ∧ iswprint i = true) :
    symbols iswprint frequencies = l := by
  have hsorted : (symbols iswprint frequencies).Sorted (· < ·) := by
    unfold symbols
    exact List.Sorted.filter _ (List.sorted_lt_range UNICODE_RANGE)
  refine List.eq_of_perm_of_sorted ?_ hsorted hs
  rw [List.perm_ext_iff_of_nodup (symbols_nodup iswprint frequencies) hs.nodup]
  intro i
  rw [mem_symbols, hl]

/-- The build, started from the list of symbols of the table. -/
theorem build_huffman_tree_eq (pq : priority_queue) (iswprint : wchar_t → Bool)
    (frequencies : Nat → Int) (l : List Nat) (hl : symbols iswprint frequencies = l) :
    build_huffman_tree pq iswprint frequencies =
      (let q := l.foldl (fun q i => pq.push q (create_node i (frequencies i))) pq.init
       let q := merge_loop pq (pq.size q) q
       if pq.size q = 0 then node.nullptr else pq.top q) := by
  unfold build_huffman_tree
  rw [push_leaves_eq_foldl]
  unfold symbols at hl
  rw [hl]

end tree

theorem aaabbc_symbols : tree.symbols ascii_print aaabbc_table = [97, 98, 99] := by
  apply tree.symbols_eq
  · decide
  · intro i
    simp only [aaabbc_table, ascii_print, tree.UNICODE_RANGE, List.mem_cons, List.mem_singleton,
      List.not_mem_nil, or_false, decide_eq_true_eq]
    constructor
    · rintro (rfl | rfl | rfl) <;> simp
    · rintro ⟨_, h, _⟩
      by_contra hne
      simp only [not_or] at hne
      simp [hne.1, hne.2.1, hne.2.2] at h

theorem aaabbc_tree :
    tree.build_huffman_tree list_queue ascii_print aaabbc_table =
      aaabbc_tree_node := by
  rw [tree.build_huffman_tree_eq list_queue ascii_print aaabbc_table _ aaabbc_symbols]
  decide

theorem aaabbc_codes :
    tree.huffman_codes list_queue ascii_print aaabbc_table =
      [(97, [48]), (99, [49, 48]), (98, [49, 49])] := by
  unfold tree.huffman_codes
  rw [aaabbc_tree]
  decide

theorem aaabbc_table_nonneg : ∀ i, 0 ≤ aaabbc_table i := by
  intro i
  unfold aaabbc_table
  split_ifs <;> decide

/-! ## The possible runs of the merge loop -/

namespace tree

theorem merge_candidates_sound (L : List node) (M' : Multiset node)
    (h : merge_of (L : Multiset node) M') :
    ∃ L' ∈ merge_candidates L, M' = (L' : Multiset node) := by
  obtain ⟨l, r, hl, hr, hlmin, hrmin, rfl⟩ := h
  rw [Multiset.coe_erase] at hr hrmin
  refine ⟨node.mk 0 (int_wrap (l.frequency + r.frequency)) l r :: (L.erase l).erase r, ?_, ?_⟩
  · unfold merge_candidates
    rw [List.mem_flatMap]
    refine ⟨l, ?_, ?_⟩
    · rw [List.mem_filter]
      refine ⟨Multiset.mem_coe.1 hl, ?_⟩
      rw [List.all_eq_true]
      intro x hx
      exact decide_eq_true (hlmin x (Multiset.mem_coe.2 hx))
    · rw [List.mem_map]
      refine ⟨r, ?_, rfl⟩
      rw [List.mem_filter]
      refine ⟨Multiset.mem_coe.1 hr, ?_⟩
      rw [List.all_eq_true]
      intro x hx
      exact decide_eq_true (hrmin x (Multiset.mem_coe.2 hx))
  · rw [Multiset.coe_erase, Multiset.coe_erase, Multiset.cons_coe]

/-- Whatever the queue implementation, the merge loop ends with a single queued
tree, and that tree is one of `possible_roots`. -/
theorem merge_loop_possible (pq : priority_queue) (fuel : Nat) (q : pq.Q) (L : List node)
    (hq : pq.contents q = (L : Multiset node)) (hf : L.length ≤ fuel + 1) (hne : L ≠ []) :
    ∃ t ∈ possible_roots fuel L, pq.contents (merge_loop pq fuel q) = {t} := by
  induction fuel generalizing q L with
  | zero =>
    cases L with
    | nil => exact absurd rfl hne
    | cons t rest =>
      cases rest with
      | nil => exact ⟨t, by simp [possible_roots], by rw [merge_loop, hq]; rfl⟩
      | cons _ _ => simp at hf
  | succ n ih =>
    have hsize : pq.size q = L.length := by rw [pq.size_eq, hq]; rfl
    rw [merge_loop, possible_roots, hsize]
    by_cases hs : 1 < L.length
    · rw [if_pos hs, if_pos hs]
      have hm := merge_step_spec pq q (by rw [hsize]; exact hs)
      have hcard := merge_of_card _ _ hm
      rw [hq] at hm
      obtain ⟨L', hL', hc⟩ := merge_candidates_sound L _ hm
      rw [hq, hc, Multiset.coe_card, Multiset.coe_card] at hcard
      obtain ⟨t, ht, hfin⟩ := ih (merge_step pq q) L' hc (by omega)
        (by intro h0; rw [h0] at hcard; simp at hcard; omega)
      exact ⟨t, List.mem_flatMap.2 ⟨L', hL', ht⟩, hfin⟩
    · rw [if_neg hs, if_neg hs]
      cases L with
      | nil => exact absurd rfl hne
      | cons t rest =>
        cases rest with
        | nil => exact ⟨t, by simp, by rw [hq]; rfl⟩
        | cons _ _ => simp at hs

/-- Whatever the queue implementation, the tree built for a table with at least
one symbol is one of the `possible_roots` of its leaves. -/
theorem build_huffman_tree_possible (pq : priority_queue) (iswprint : wchar_t → Bool)
    (frequencies : Nat → Int) (l : List Nat) (hl : symbols iswprint frequencies = l)
    (hne : l ≠ []) :
    build_huffman_tree pq iswprint frequencies ∈
      possible_roots l.length (l.map (fun i => create_node i (frequencies i))) := by
  have hc := contents_initial pq iswprint frequencies
  rw [hl] at hc
  have hsize : pq.size (push_leaves pq iswprint frequencies (List.range UNICODE_RANGE) pq.init)
      = l.length := by
    rw [pq.size_eq, hc, Multiset.coe_card, List.length_map]
  obtain ⟨t, ht, hfin⟩ := merge_loop_possible pq l.length _ _ hc
    (by rw [List.length_map]; exact Nat.le_succ _) (by simpa using hne)
  have hbuild : build_huffman_tree pq iswprint frequencies = t := by
    unfold build_huffman_tree
    simp only [hsize]
    have hs1 : pq.size (merge_loop pq l.length
        (push_leaves pq iswprint frequencies (List.range UNICODE_RANGE) pq.init)) = 1 := by
      rw [pq.size_eq, hfin]; rfl
    rw [hs1, if_neg (by decide)]
    exact top_of_singleton pq _ _ hfin
  rw [hbuild]
  exact ht

end tree

/-! ## Claims on the generated code table -/

namespace tree

theorem generate_codes_root (root : node) (hd : (leaf_symbols root).Nodup) :
    generate_codes root [] [] = leaf_paths root [] := by
  have := generate_codes_eq root [] [] (by rw [List.nil_append, leaf_paths_fst]; exact hd)
  simpa using this

theorem find_leaf_paths_iff (root : node) (hd : (leaf_symbols root).Nodup) (s : wchar_t)
    (c : wstring) : unordered_map.find (leaf_paths root []) s = some c ↔ leaf_at root c s := by
  rw [find_eq_some_iff _ (by rw [leaf_paths_fst]; exact hd), mem_leaf_paths_iff]
  constructor
  · rintro ⟨p, rfl, hp⟩
    simpa using hp
  · intro hp
    exact ⟨c, by simp, hp⟩

/-- C3: for a tree whose leaf symbols are pairwise distinct, `generate_codes`
started with the empty prefix and the empty map yields a map whose keys are
exactly the leaf symbols, each mapped to its root-to-leaf path (`0` for a left
descent, `1` for a right descent); the map has one entry per leaf, so internal
nodes contribute nothing. -/
theorem generate_codes_root_to_leaf_paths (root : node) (hd : (leaf_symbols root).Nodup) :
    (∀ s, s ∈ (generate_codes root [] []).map Prod.fst ↔ s ∈ leaf_symbols root) ∧
    (∀ s c, (generate_codes root [] []).find s = some c ↔ leaf_at root c s) ∧
    ((generate_codes root [] []).map Prod.fst).Nodup ∧
    (generate_codes root [] []).length = leaf_count root := by
  have h := generate_codes_root root hd
  have hk : (generate_codes root [] []).map Prod.fst = leaf_symbols root := by
    rw [h, leaf_paths_fst]
  refine ⟨fun s => by rw [hk], ?_, by rw [hk]; exact hd, ?_⟩
  · intro s c
    rw [h]
    exact find_leaf_paths_iff root hd s c
  · rw [leaf_count_eq, ← hk, List.length_map]

theorem generate_codes_root_to_leaf_paths_witness :
    (leaf_symbols aaabbc_tree_node).Nodup ∧
    ((∀ s, s ∈ (generate_codes aaabbc_tree_node [] []).map Prod.fst ↔
        s ∈ leaf_symbols aaabbc_tree_node) ∧
      (∀ s c, (generate_codes aaabbc_tree_node [] []).find s = some c ↔
        leaf_at aaabbc_tree_node c s) ∧
      ((generate_codes aaabbc_tree_node [] []).map Prod.fst).Nodup ∧
      (generate_codes aaabbc_tree_node [] []).length = leaf_count aaabbc_tree_node) :=
  ⟨by decide, generate_codes_root_to_leaf_paths aaabbc_tree_node (by decide)⟩

/-- Two leaves of a tree are never on one root-to-leaf path: if the path to a
leaf extends the path to a leaf, both are the same leaf. -/
theorem leaf_at_extension (t : node) (p q : wstring) (s1 s2 : wchar_t)
    (h1 : leaf_at t p s1) (h2 : leaf_at t (p ++ q) s2) : q = [] ∧ s1 = s2 := by
  induction h1 with
  | here v f =>
    cases h2 with
    | here => exact ⟨rfl, rfl⟩
    | go_left _ _ _ _ _ _ h => cases h
    | go_right _ _ _ _ _ _ h => cases h
  | go_left v f l r p s h ih =>
    cases h2 with
    | go_left _ _ _ _ _ _ h' => exact ih h'
  | go_right v f l r p s h ih =>
    cases h2 with
    | go_right _ _ _ _ _ _ h' => exact ih h'

theorem huffman_codes_find_iff (pq : priority_queue) (iswprint : wchar_t → Bool)
    (frequencies : Nat → Int) (s : wchar_t) (c : wstring) :
    (huffman_codes pq iswprint frequencies).find s = some c ↔
      leaf_at (build_huffman_tree pq iswprint frequencies) c s := by
  rw [huffman_codes_eq]
  exact find_leaf_paths_iff _ (leaf_symbols_nodup pq iswprint frequencies) s c

/-- C2: in the code table generated from the tree built for a frequency table,
two different symbols have different codes and the code of neither is a prefix
of the code of the other (two symbols with a code exist exactly when the table
has at least two symbols). -/
theorem huffman_codes_prefix_free (pq : priority_queue) (iswprint : wchar_t → Bool)
    (frequencies : Nat → Int) (s1 s2 : wchar_t) (c1 c2 : wstring)
    (h1 : (huffman_codes pq iswprint frequencies).find s1 = some c1)
    (h2 : (huffman_codes pq iswprint frequencies).find s2 = some c2)
    (hne : s1 ≠ s2) : c1 ≠ c2 ∧ ¬ c1 <+: c2 ∧ ¬ c2 <+: c1 := by
  rw [huffman_codes_find_iff] at h1 h2
  have key : ¬ c1 <+: c2 := by
    rintro ⟨q, rfl⟩
    exact hne (leaf_at_extension _ _ _ _ _ h1 h2).2
  have key2 : ¬ c2 <+: c1 := by
    rintro ⟨q, rfl⟩
    exact hne (leaf_at_extension _ _ _ _ _ h2 h1).2.symm
  refine ⟨?_, key, key2⟩
  rintro rfl
  exact key (List.prefix_refl _)

theorem huffman_codes_prefix_free_witness :
    (huffman_codes list_queue ascii_print aaabbc_table).find 98 = some [49, 49] ∧
    (huffman_codes list_queue ascii_print aaabbc_table).find 99 = some [49, 48] ∧
    (98 : wchar_t) ≠ 99 ∧
    (([49, 49] : wstring) ≠ [49, 48] ∧ ¬ ([49, 49] : wstring) <+: [49, 48] ∧
      ¬ ([49, 48] : wstring) <+: [49, 49]) :=
  ⟨by rw [aaabbc_codes]; decide, by rw [aaabbc_codes]; decide, by decide,
    huffman_codes_prefix_free list_queue ascii_print aaabbc_table 98 99 [49, 49] [49, 48]
      (by rw [aaabbc_codes]; decide) (by rw [aaabbc_codes]; decide) (by decide)⟩

/-- The number of symbols of a table of non-negative counts. -/
theorem symbols_length (iswprint : wchar_t → Bool) (frequencies : Nat → Int)
    (hnn : ∀ i, 0 ≤ frequencies i) :
    (symbols iswprint frequencies).length =
      ((Finset.range UNICODE_RANGE).filter
        (fun i => iswprint i = true ∧ 0 < frequencies i)).card := by
  have heq : (symbols iswprint frequencies).toFinset =
      (Finset.range UNICODE_RANGE).filter
        (fun i => iswprint i = true ∧ 0 < frequencies i) := by
    ext i
    rw [List.mem_toFinset, mem_symbols, Finset.mem_filter, Finset.mem_range]
    have := hnn i
    constructor
    · rintro ⟨h1, h2, h3⟩
      exact ⟨h1, h3, lt_of_le_of_ne this (Ne.symm h2)⟩
    · rintro ⟨h1, h3, h2⟩
      exact ⟨h1, ne_of_gt h2, h3⟩
  rw [← heq, List.toFinset_card_of_nodup (symbols_nodup iswprint frequencies)]

theorem leaf_count_build (pq : priority_queue) (iswprint : wchar_t → Bool)
    (frequencies : Nat → Int) :
    leaf_count (build_huffman_tree pq iswprint frequencies) =
      (symbols iswprint frequencies).length := by
  rw [leaf_count_eq, (leaf_symbols_perm pq iswprint frequencies).length_eq]

theorem huffman_codes_length (pq : priority_queue) (iswprint : wchar_t → Bool)
    (frequencies : Nat → Int) :
    (huffman_codes pq iswprint frequencies).length = (symbols iswprint frequencies).length := by
  rw [huffman_codes_eq, ← List.length_map (leaf_paths _ _) Prod.fst, leaf_paths_fst,
    (leaf_symbols_perm pq iswprint frequencies).length_eq]

/-- C4: the number of leaves of the tree returned by `build_huffman_tree` equals
the number of distinct symbols (printable characters below `UNICODE_RANGE`) whose
count is positive; the table holds non-negative counts. -/
theorem build_huffman_tree_leaf_count (pq : priority_queue) (iswprint : wchar_t → Bool)
    (frequencies : Nat → Int) (hnn : ∀ i, 0 ≤ frequencies i) :
    leaf_count (build_huffman_tree pq iswprint frequencies) =
      ((Finset.range UNICODE_RANGE).filter
        (fun i => iswprint i = true ∧ 0 < frequencies i)).card := by
  rw [leaf_count_build pq iswprint frequencies]
  exact symbols_length iswprint frequencies hnn

theorem build_huffman_tree_leaf_count_witness :
    (∀ i, 0 ≤ aaabbc_table i) ∧
    leaf_count (build_huffman_tree list_queue ascii_print aaabbc_table) =
      ((Finset.range UNICODE_RANGE).filter
        (fun i => ascii_print i = true ∧ 0 < aaabbc_table i)).card :=
  ⟨aaabbc_table_nonneg,
    build_huffman_tree_leaf_count list_queue ascii_print aaabbc_table aaabbc_table_nonneg⟩

/-- C5: the number of entries of the map filled by `generate_codes` on the tree
built from a frequency table (of non-negative counts) equals the number of
distinct symbols of the table, that is, of printable characters with a positive
count. -/
theorem huffman_codes_size (pq : priority_queue) (iswprint : wchar_t → Bool)
    (frequencies : Nat → Int) (hnn : ∀ i, 0 ≤ frequencies i) :
    (huffman_codes pq iswprint frequencies).length =
      ((Finset.range UNICODE_RANGE).filter
        (fun i => iswprint i = true ∧ 0 < frequencies i)).card := by
  rw [huffman_codes_length pq iswprint frequencies]
  exact symbols_length iswprint frequencies hnn

theorem huffman_codes_size_witness :
    (∀ i, 0 ≤ aaabbc_table i) ∧
    (huffman_codes list_queue ascii_print aaabbc_table).length =
      ((Finset.range UNICODE_RANGE).filter
        (fun i => ascii_print i = true ∧ 0 < aaabbc_table i)).card :=
  ⟨aaabbc_table_nonneg,
    huffman_codes_size list_queue ascii_print aaabbc_table aaabbc_table_nonneg⟩

end tree

/-! ## Encoding and size accounting -/

theorem compress_file_foldl (text : tree.wstring) (codes : tree.unordered_map)
    (acc : tree.wstring) :
    text.foldl
      (fun compressed_text ch =>
        match codes.find ch with
        | some code => compressed_text ++ code
        | none => compressed_text) acc =
      acc ++ ((text.filter (fun ch => (codes.find ch).isSome)).map
        (fun ch => tree.code_of codes ch)).flatten := by
  induction text generalizing acc with
  | nil => simp
  | cons ch rest ih =>
    rw [List.foldl_cons, ih]
    cases hf : codes.find ch with
    | none => simp [hf]
    | some c => simp [hf, tree.code_of]

/-- C6: `compress_file(text, codes)` is the concatenation, in input order, of
`codes[ch]` for exactly those characters `ch` of `text` that are keys of the
table; the other characters contribute nothing and encoding goes on after them. -/
theorem compress_file_concat (text : tree.wstring) (codes : tree.unordered_map) :
    compress_file text codes =
      ((text.filter (fun ch => (codes.find ch).isSome)).map
        (fun ch => tree.code_of codes ch)).flatten := by
  unfold compress_file
  rw [compress_file_foldl]
  exact List.nil_append _

theorem compress_file_nil_codes (text : tree.wstring) : compress_file text [] = [] := by
  unfold compress_file
  rw [compress_file_foldl]
  simp [tree.unordered_map.find]

theorem compress_file_empty_code (s : tree.wchar_t) (text : tree.wstring) :
    compress_file text [(s, [])] = [] := by
  unfold compress_file
  rw [compress_file_foldl]
  simp only [List.nil_append, List.flatten_eq_nil_iff, List.mem_map, List.mem_filter]
  rintro l ⟨ch, ⟨_, hch⟩, rfl⟩
  unfold tree.code_of tree.unordered_map.find
  split_ifs <;> rfl

theorem compressed_size_bytes_of_lt (n : Nat) (h : n + 7 < 2 ^ 64) :
    compressed_size_bytes n = (n + 7) / 8 := by
  unfold compressed_size_bytes
  rw [Nat.mod_eq_of_lt h]

theorem ceil_div_eight (n : Nat) : ⌈(n : ℚ) / 8⌉₊ = (n + 7) / 8 := by
  by_cases hn : n = 0
  · subst hn; norm_num
  · have hpos : (n + 7) / 8 ≠ 0 := by omega
    rw [Nat.ceil_eq_iff hpos]
    have h1 : 8 * ((n + 7) / 8 - 1) < n := by omega
    have h2 : n ≤ 8 * ((n + 7) / 8) := by omega
    have h1q : ((8 * ((n + 7) / 8 - 1) : ℕ) : ℚ) < (n : ℚ) := by exact_mod_cast h1
    have h2q : (n : ℚ) ≤ ((8 * ((n + 7) / 8) : ℕ) : ℚ) := by exact_mod_cast h2
    push_cast at h1q h2q
    constructor
    · rw [lt_div_iff₀ (by norm_num)]; linarith
    · rw [div_le_iff₀ (by norm_num)]; linarith

/-- C8 (as amended): for every bit count `n` with `n + 7` below `2 ^ 64`, the
computed size `(n + 7) / 8` in `size_t` arithmetic is the ceiling of `n / 8`. -/
theorem compressed_size_bytes_ceil (n : Nat) (h : n + 7 < 2 ^ 64) :
    compressed_size_bytes n = ⌈(n : ℚ) / 8⌉₊ := by
  rw [compressed_size_bytes_of_lt n h]
  exact (ceil_div_eight n).symm

theorem compressed_size_bytes_ceil_witness :
    9 + 7 < 2 ^ 64 ∧ compressed_size_bytes 9 = ⌈((9 : ℕ) : ℚ) / 8⌉₊ :=
  ⟨by norm_num, compressed_size_bytes_ceil 9 (by norm_num)⟩

/-- C8 (counterexample): the bit count `2 ^ 64 - 1` fits the 64-bit `size_t`, the
program computes `0` bytes for it, and the ceiling of `(2 ^ 64 - 1) / 8` is
`2 ^ 61`. -/
theorem compressed_size_bytes_wraps :
    2 ^ 64 - 1 < 2 ^ 64 ∧ compressed_size_bytes (2 ^ 64 - 1) = 0 ∧
      ⌈((2 ^ 64 - 1 : ℕ) : ℚ) / 8⌉₊ = 2 ^ 61 ∧
      compressed_size_bytes (2 ^ 64 - 1) ≠ ⌈((2 ^ 64 - 1 : ℕ) : ℚ) / 8⌉₊ := by
  have h1 : compressed_size_bytes (2 ^ 64 - 1) = 0 := by
    unfold compressed_size_bytes; norm_num
  have h2 : ⌈((2 ^ 64 - 1 : ℕ) : ℚ) / 8⌉₊ = 2 ^ 61 := by
    rw [ceil_div_eight]; norm_num
  refine ⟨by norm_num, h1, h2, ?_⟩
  rw [h1, h2]
  norm_num

/-! ## Degenerate tables -/

namespace tree

theorem symbols_of_single (iswprint : wchar_t → Bool) (frequencies : Nat → Int) (s : wchar_t)
    (hs : s < UNICODE_RANGE) (hp : iswprint s = true) (hnn : ∀ i, 0 ≤ frequencies i)
    (hone : ∀ i, i < UNICODE_RANGE → iswprint i = true → (0 < frequencies i ↔ i = s)) :
    symbols iswprint frequencies = [s] := by
  apply symbols_eq
  · exact List.sorted_singleton s
  · intro i
    rw [List.mem_singleton]
    constructor
    · rintro rfl
      exact ⟨hs, ne_of_gt ((hone i hs hp).2 rfl), hp⟩
    · rintro ⟨h1, h2, h3⟩
      exact (hone i h1 h3).1 (lt_of_le_of_ne (hnn i) (Ne.symm h2))

theorem symbols_of_none (iswprint : wchar_t → Bool) (frequencies : Nat → Int)
    (hnn : ∀ i, 0 ≤ frequencies i)
    (hnone : ∀ i, i < UNICODE_RANGE → iswprint i = true → ¬ 0 < frequencies i) :
    symbols iswprint frequencies = [] := by
  apply symbols_eq
  · exact List.sorted_nil
  · intro i
    simp only [List.not_mem_nil, false_iff]
    rintro ⟨h1, h2, h3⟩
    exact hnone i h1 h3 (lt_of_le_of_ne (hnn i) (Ne.symm h2))

/-- The queue after the first loop, from the list of symbols of the table. -/
theorem push_leaves_range (pq : priority_queue) (iswprint : wchar_t → Bool)
    (frequencies : Nat → Int) (l : List Nat) (hl : symbols iswprint frequencies = l) :
    push_leaves pq iswprint frequencies (List.range UNICODE_RANGE) pq.init =
      l.foldl (fun q i => pq.push q (create_node i (frequencies i))) pq.init := by
  rw [push_leaves_eq_foldl]
  unfold symbols at hl
  rw [hl]

/-- C9: for a table with exactly one symbol `s` of positive count, the queue
holds one element after the first loop, so the merge loop does not run and
`build_huffman_tree` returns the leaf made for `s`; `generate_codes` maps `s` to
the empty string; every text made of occurrences of `s` is encoded to the empty
bit string, whose size in bytes is `0`. -/
theorem single_symbol_table (pq : priority_queue) (iswprint : wchar_t → Bool)
    (frequencies : Nat → Int) (s : wchar_t)
    (hs : s < UNICODE_RANGE) (hp : iswprint s = true) (hnn : ∀ i, 0 ≤ frequencies i)
    (hone : ∀ i, i < UNICODE_RANGE → iswprint i = true → (0 < frequencies i ↔ i = s)) :
    pq.size (push_leaves pq iswprint frequencies (List.range UNICODE_RANGE) pq.init) = 1 ∧
    (∀ fuel, merge_loop pq fuel
        (push_leaves pq iswprint frequencies (List.range UNICODE_RANGE) pq.init) =
      push_leaves pq iswprint frequencies (List.range UNICODE_RANGE) pq.init) ∧
    build_huffman_tree pq iswprint frequencies = create_node s (frequencies s) ∧
    generate_codes (build_huffman_tree pq iswprint frequencies) [] [] = [(s, [])] ∧
    ∀ text : wstring, (∀ ch ∈ text, ch = s) →
      compress_file text (generate_codes (build_huffman_tree pq iswprint frequencies) [] []) = [] ∧
      compressed_size_bytes (compress_file text
        (generate_codes (build_huffman_tree pq iswprint frequencies) [] [])).length = 0 := by
  have hsym := symbols_of_single iswprint frequencies s hs hp hnn hone
  have hq := push_leaves_range pq iswprint frequencies [s] hsym
  have hc : pq.contents (push_leaves pq iswprint frequencies (List.range UNICODE_RANGE) pq.init)
      = {create_node s (frequencies s)} := by
    rw [hq, List.foldl_cons, List.foldl_nil, pq.contents_push, pq.contents_init]
    rfl
  have hsize : pq.size (push_leaves pq iswprint frequencies (List.range UNICODE_RANGE) pq.init)
      = 1 := by
    rw [pq.size_eq, hc]; rfl
  have hloop : ∀ fuel, merge_loop pq fuel
        (push_leaves pq iswprint frequencies (List.range UNICODE_RANGE) pq.init) =
      push_leaves pq iswprint frequencies (List.range UNICODE_RANGE) pq.init :=
    fun fuel => merge_loop_of_size_le_one pq fuel _ (le_of_eq hsize)
  have hbuild : build_huffman_tree pq iswprint frequencies = create_node s (frequencies s) := by
    unfold build_huffman_tree
    simp only [hloop, hsize]
    rw [if_neg (by decide)]
    exact top_of_singleton pq _ _ hc
  have hcodes : generate_codes (build_huffman_tree pq iswprint frequencies) [] [] = [(s, [])] := by
    rw [hbuild]
    simp [create_node, generate_codes, unordered_map.assign]
  refine ⟨hsize, hloop, hbuild, hcodes, ?_⟩
  intro text _
  rw [hcodes, compress_file_empty_code]
  exact ⟨rfl, by decide⟩

end tree

theorem single_table_nonneg : ∀ i, 0 ≤ single_table i := by
  intro i
  unfold single_table
  split_ifs <;> decide

theorem single_table_one :
    ∀ i, i < tree.UNICODE_RANGE → ascii_print i = true → (0 < single_table i ↔ i = 97) := by
  intro i _ _
  unfold single_table
  split_ifs with h
  · simp [h]
  · simp [h]

theorem single_symbol_table_witness :
    (97 < tree.UNICODE_RANGE ∧ ascii_print 97 = true ∧ (∀ i, 0 ≤ single_table i) ∧
      (∀ i, i < tree.UNICODE_RANGE → ascii_print i = true → (0 < single_table i ↔ i = 97))) ∧
    (∀ ch ∈ ([97, 97, 97, 97, 97] : tree.wstring), ch = 97) ∧
    tree.build_huffman_tree list_queue ascii_print single_table =
      tree.create_node 97 (single_table 97) ∧
    compress_file [97, 97, 97, 97, 97]
      (tree.generate_codes (tree.build_huffman_tree list_queue ascii_print single_table) [] [])
        = [] :=
  ⟨⟨by decide, by decide, single_table_nonneg, single_table_one⟩, by decide,
    (tree.single_symbol_table list_queue ascii_print single_table 97 (by decide) (by decide)
      single_table_nonneg single_table_one).2.2.1,
    ((tree.single_symbol_table list_queue ascii_print single_table 97 (by decide) (by decide)
      single_table_nonneg single_table_one).2.2.2.2 [97, 97, 97, 97, 97] (by decide)).1⟩

namespace tree

/-- C10: for the frequency table with no positive count, `build_huffman_tree`
returns the null root, `generate_codes` on the null root leaves the code table
as it was (empty when started empty), and `compress_file` of every text with
that table returns the empty bit string. -/
theorem empty_frequency_table (pq : priority_queue) (iswprint : wchar_t → Bool)
    (frequencies : Nat → Int) (hnn : ∀ i, 0 ≤ frequencies i)
    (hnone : ∀ i, i < UNICODE_RANGE → iswprint i = true → ¬ 0 < frequencies i) :
    build_huffman_tree pq iswprint frequencies = node.nullptr ∧
    (∀ pfx codes, generate_codes (build_huffman_tree pq iswprint frequencies) pfx codes = codes) ∧
    generate_codes (build_huffman_tree pq iswprint frequencies) [] [] = [] ∧
    ∀ text : wstring,
      compress_file text (generate_codes (build_huffman_tree pq iswprint frequencies) [] [])
        = [] := by
  have hsym := symbols_of_none iswprint frequencies hnn hnone
  have hbuild : build_huffman_tree pq iswprint frequencies = node.nullptr :=
    (build_huffman_tree_leaves pq iswprint frequencies).1 hsym
  refine ⟨hbuild, ?_, ?_, ?_⟩
  · intro pfx codes
    rw [hbuild]
    rfl
  · rw [hbuild]
    rfl
  · intro text
    rw [hbuild]
    exact compress_file_nil_codes text

theorem empty_table_none :
    ∀ i, i < UNICODE_RANGE → ascii_print i = true → ¬ 0 < empty_table i := by
  intro i _ _
  unfold empty_table
  decide

theorem empty_frequency_table_witness :
    ((∀ i, 0 ≤ empty_table i) ∧
      (∀ i, i < UNICODE_RANGE → ascii_print i = true → ¬ 0 < empty_table i)) ∧
    build_huffman_tree list_queue ascii_print empty_table = node.nullptr ∧
    compress_file aaabbc
      (generate_codes (build_huffman_tree list_queue ascii_print empty_table) [] []) = [] :=
  ⟨⟨fun _ => le_refl _, empty_table_none⟩,
    (empty_frequency_table list_queue ascii_print empty_table (fun _ => le_refl _)
      empty_table_none).1,
    (empty_frequency_table list_queue ascii_print empty_table (fun _ => le_refl _)
      empty_table_none).2.2.2 aaabbc⟩

end tree

/-! ## Bit accounting -/

theorem compress_file_cons (ch : tree.wchar_t) (rest : tree.wstring)
    (codes : tree.unordered_map) :
    compress_file (ch :: rest) codes = tree.code_of codes ch ++ compress_file rest codes := by
  unfold compress_file
  rw [compress_file_foldl, compress_file_foldl, List.nil_append, List.nil_append]
  cases hf : codes.find ch with
  | none => simp [hf, tree.code_of]
  | some c => simp [hf, tree.code_of]

theorem compress_file_length (text : tree.wstring) (codes : tree.unordered_map) :
    (compress_file text codes).length =
      (text.map (fun ch => (tree.code_of codes ch).length)).sum := by
  induction text with
  | nil => rfl
  | cons ch rest ih =>
    rw [compress_file_cons, List.length_append, ih, List.map_cons, List.sum_cons]

theorem sum_map_eq_sum_dedup (l : List Nat) (F : Nat → Int) :
    (l.map F).sum = (l.dedup.map (fun s => (l.count s : Int) * F s)).sum := by
  rw [Finset.sum_list_map_count, ← List.sum_toFinset _ (List.nodup_dedup l)]
  have hset : l.dedup.toFinset = l.toFinset := by
    ext x; simp
  rw [hset]
  refine Finset.sum_congr rfl (fun x _ => ?_)
  simp [nsmul_eq_mul]

theorem compress_file_length_dedup (text : tree.wstring) (codes : tree.unordered_map) :
    ((compress_file text codes).length : Int) =
      (text.dedup.map
        (fun s => (text.count s : Int) * ((tree.code_of codes s).length : Int))).sum := by
  rw [compress_file_length, ← sum_map_eq_sum_dedup]
  induction text with
  | nil => rfl
  | cons ch rest ih => simp only [List.map_cons, List.sum_cons, Nat.cast_add, ih]

theorem int_wrap_succ (x : Int) : tree.int_wrap (tree.int_wrap x + 1) = tree.int_wrap (x + 1) := by
  unfold tree.int_wrap
  omega

theorem int_wrap_of_range (x : Int) (h1 : -2 ^ 31 ≤ x) (h2 : x < 2 ^ 31) :
    tree.int_wrap x = x := by
  unfold tree.int_wrap
  omega

/-- The counting loop on characters that are all inside the array: the retained
text is the printable part of the input, each count is the wrapped number of
occurrences. -/
theorem count_loop_eq (iswprint : tree.wchar_t → Bool) (input : List tree.wchar_t)
    (hin : ∀ ch ∈ input, iswprint ch = true → ch < tree.UNICODE_RANGE)
    (cont : Nat → Int) (text : tree.wstring) (n : Nat → Int)
    (hc : ∀ i, cont i = tree.int_wrap (n i)) :
    ∃ cont', count_loop iswprint input (cont, text) =
        some (cont', text ++ input.filter iswprint) ∧
      ∀ i, cont' i = tree.int_wrap (n i + ((input.filter iswprint).count i : Int)) := by
  induction input generalizing cont text n with
  | nil => exact ⟨cont, by simp [count_loop], by simpa using hc⟩
  | cons ch rest ih =>
    have hrest : ∀ c ∈ rest, iswprint c = true → c < tree.UNICODE_RANGE :=
      fun c hcm => hin c (List.mem_cons_of_mem _ hcm)
    by_cases hp : iswprint ch = true
    · have hlt := hin ch (List.mem_cons_self _ _) hp
      obtain ⟨cont', h1, h2⟩ := ih hrest
        (fun i => if i = ch then tree.int_wrap (cont i + 1) else cont i) (text ++ [ch])
        (fun i => if i = ch then n i + 1 else n i)
        (by
          intro i
          by_cases hi : i = ch
          · simp only [hi, if_true]
            rw [hc ch, int_wrap_succ]
          · simp only [hi, if_false]
            exact hc i)
      refine ⟨cont', ?_, ?_⟩
      · rw [count_loop, if_pos hp, if_pos hlt, h1, List.filter_cons_of_pos hp]
        simp
      · intro i
        rw [h2 i, List.filter_cons_of_pos hp, List.count_cons]
        by_cases hi : i = ch
        · subst hi
          simp only [if_true, beq_self_eq_true, Nat.cast_add, Nat.cast_one]
          congr 1
          ring
        · have hi2 : ¬ ch = i := fun h => hi h.symm
          simp [hi, hi2]
    · obtain ⟨cont', h1, h2⟩ := ih hrest cont text n hc
      refine ⟨cont', ?_, ?_⟩
      · rw [count_loop, if_neg hp, h1, List.filter_cons_of_neg hp]
      · intro i
        rw [h2 i, List.filter_cons_of_neg hp]

theorem filter_eq_self_of_printable (iswprint : tree.wchar_t → Bool) (input : List tree.wchar_t)
    (hp : ∀ ch ∈ input, iswprint ch = true ∧ ch < tree.UNICODE_RANGE) :
    input.filter iswprint = input :=
  List.filter_eq_self.2 (fun ch hch => (hp ch hch).1)

/-- The counting loop of `main` on a text of printable symbols, from the
zero-initialised table and the empty text. -/
theorem count_loop_main (iswprint : tree.wchar_t → Bool) (input : List tree.wchar_t)
    (hp : ∀ ch ∈ input, iswprint ch = true ∧ ch < tree.UNICODE_RANGE) :
    ∃ cont, count_loop iswprint input (fun _ => 0, []) = some (cont, input) ∧
      ∀ i, cont i = tree.int_wrap (input.count i : Int) := by
  obtain ⟨cont, h1, h2⟩ := count_loop_eq iswprint input (fun ch hch _ => (hp ch hch).2)
    (fun _ => 0) [] (fun _ => 0) (fun _ => by unfold tree.int_wrap; norm_num)
  rw [filter_eq_self_of_printable iswprint input hp] at h1 h2
  refine ⟨cont, by simpa using h1, fun i => ?_⟩
  rw [h2 i, zero_add]

/-- C7 (as amended): for every text of printable symbols in which no symbol
occurs `2 ^ 31` times or more, with the table counted from the text by the loop
of `main`, the length of `compress_file` of the text with the generated codes
equals the sum over the distinct symbols `s` of the text of
`frequency(s) * length(codes[s])`. -/
theorem compressed_size_bits_accounting (pq : tree.priority_queue)
    (iswprint : tree.wchar_t → Bool) (input : List tree.wchar_t)
    (hp : ∀ ch ∈ input, iswprint ch = true ∧ ch < tree.UNICODE_RANGE)
    (hcount : ∀ s, input.count s < 2 ^ 31) :
    ∃ cont, count_loop iswprint input (fun _ => 0, []) = some (cont, input) ∧
      ((compress_file input (tree.huffman_codes pq iswprint cont)).length : Int) =
        weighted_code_length cont (tree.code_of (tree.huffman_codes pq iswprint cont))
          input.dedup := by
  obtain ⟨cont, h1, h2⟩ := count_loop_main iswprint input hp
  refine ⟨cont, h1, ?_⟩
  rw [compress_file_length_dedup]
  unfold weighted_code_length
  refine congrArg List.sum (List.map_congr_left (fun s _ => ?_))
  rw [h2 s, int_wrap_of_range]
  · have : (0 : Int) ≤ (input.count s : Int) := Int.natCast_nonneg _
    linarith
  · have := hcount s
    exact_mod_cast this

theorem aaabbc_count_lt : ∀ s, aaabbc.count s < 2 ^ 31 := by
  intro s
  have h : aaabbc.count s ≤ aaabbc.length := List.count_le_length s aaabbc
  have h6 : aaabbc.length = 6 := rfl
  rw [h6] at h
  exact lt_of_le_of_lt h (by norm_num)

theorem compressed_size_bits_accounting_witness :
    ((∀ ch ∈ aaabbc, ascii_print ch = true ∧ ch < tree.UNICODE_RANGE) ∧
      (∀ s, aaabbc.count s < 2 ^ 31)) ∧
    ∃ cont, count_loop ascii_print aaabbc (fun _ => 0, []) = some (cont, aaabbc) ∧
      ((compress_file aaabbc (tree.huffman_codes list_queue ascii_print cont)).length : Int) =
        weighted_code_length cont (tree.code_of (tree.huffman_codes list_queue ascii_print cont))
          aaabbc.dedup :=
  ⟨⟨by decide, aaabbc_count_lt⟩,
    compressed_size_bits_accounting list_queue ascii_print aaabbc (by decide) aaabbc_count_lt⟩

theorem long_text_printable :
    ∀ ch ∈ long_text, ascii_print ch = true ∧ ch < tree.UNICODE_RANGE := by
  intro ch hch
  unfold long_text at hch
  rcases List.mem_append.1 hch with h | h
  · rw [List.eq_of_mem_replicate h]; decide
  · rw [List.mem_singleton.1 h]; decide

theorem long_text_count (i : Nat) :
    (long_text.count i : Int) = if i = 97 then 2147483648 else if i = 98 then 1 else 0 := by
  unfold long_text
  rw [List.count_append, List.count_replicate]
  by_cases h1 : i = 97
  · subst h1; simp
  · by_cases h2 : i = 98
    · subst h2; simp
    · have h1' : ¬ (97 : Nat) = i := fun h => h1 h.symm
      have h2' : ¬ (98 : Nat) = i := fun h => h2 h.symm
      simp [h1, h2, h1', h2']

theorem long_text_table :
    count_loop ascii_print long_text (fun _ => 0, []) = some (long_table, long_text) := by
  obtain ⟨cont, h1, h2⟩ := count_loop_main ascii_print long_text long_text_printable
  have hc : cont = long_table := by
    funext i
    rw [h2 i, long_text_count]
    unfold long_table tree.int_wrap
    split_ifs <;> norm_num
  rw [h1, hc]

theorem long_table_symbols : tree.symbols ascii_print long_table = [97, 98] := by
  apply tree.symbols_eq
  · decide
  · intro i
    simp only [long_table, ascii_print, tree.UNICODE_RANGE, List.mem_cons, List.mem_singleton,
      List.not_mem_nil, or_false, decide_eq_true_eq]
    constructor
    · rintro (rfl | rfl) <;> simp
    · rintro ⟨_, h, _⟩
      by_contra hne
      simp only [not_or] at hne
      simp [hne.1, hne.2] at h

theorem long_table_codes (pq : tree.priority_queue) :
    tree.huffman_codes pq ascii_print long_table = [(97, [48]), (98, [49])] := by
  have h := tree.build_huffman_tree_possible pq ascii_print long_table _ long_table_symbols
    (by decide)
  have hroots : tree.possible_roots 2
      ([97, 98].map (fun i => tree.create_node i (long_table i))) =
      [tree.node.mk 0 (-2147483647) (tree.node.mk 97 (-2147483648) tree.node.nullptr
        tree.node.nullptr) (tree.node.mk 98 1 tree.node.nullptr tree.node.nullptr)] := by
    decide
  have hlen : ([97, 98] : List Nat).length = 2 := rfl
  rw [hlen, hroots, List.mem_singleton] at h
  unfold tree.huffman_codes
  rw [h]
  decide

theorem long_text_dedup_sum (F : Nat → Int) :
    (long_text.dedup.map F).sum = F 97 + F 98 := by
  rw [← List.sum_toFinset _ (List.nodup_dedup long_text)]
  have hset : long_text.dedup.toFinset = {97, 98} := by
    ext x
    rw [List.mem_toFinset, List.mem_dedup, Finset.mem_insert, Finset.mem_singleton]
    unfold long_text
    rw [List.mem_append, List.mem_replicate, List.mem_singleton]
    constructor
    · rintro (⟨_, h⟩ | h)
      · exact Or.inl h
      · exact Or.inr h
    · rintro (h | h)
      · exact Or.inl ⟨by norm_num, h⟩
      · exact Or.inr h
  rw [hset, Finset.sum_pair (by decide)]

/-- C7 (counterexample): the text of `2 ^ 31` letters `a` and one `b` is made of
printable symbols; the counting loop leaves the count of `a` at `-2 ^ 31`; for
every queue implementation the encoded text has `2 ^ 31 + 1` bits while the sum
of `frequency(s) * length(codes[s])` over its two symbols is `-2 ^ 31 + 1`. -/
theorem compressed_size_bits_overflow :
    (∀ ch ∈ long_text, ascii_print ch = true ∧ ch < tree.UNICODE_RANGE) ∧
    count_loop ascii_print long_text (fun _ => 0, []) = some (long_table, long_text) ∧
    ∀ pq : tree.priority_queue,
      ((compress_file long_text (tree.huffman_codes pq ascii_print long_table)).length
        : Int) = 2 ^ 31 + 1 ∧
      weighted_code_length long_table
        (tree.code_of (tree.huffman_codes pq ascii_print long_table)) long_text.dedup
          = -2 ^ 31 + 1 := by
  refine ⟨long_text_printable, long_text_table, fun pq => ⟨?_, ?_⟩⟩
  · rw [compress_file_length, long_table_codes]
    unfold long_text
    rw [List.map_append, List.sum_append, List.map_replicate, List.sum_replicate]
    simp [tree.code_of, tree.unordered_map.find]
  · unfold weighted_code_length
    rw [long_text_dedup_sum, long_table_codes]
    simp [tree.code_of, tree.unordered_map.find, long_table]

/-! ## Optimality: depth profiles -/

theorem realizable_length_pos (D : List Nat) (h : realizable D) : 1 ≤ D.length := by
  induction h with
  | single => simp
  | join a b _ _ iha ihb => simp only [List.length_map, List.length_append]; omega
  | perm a b hp _ ih => rw [← hp.length_eq]; exact ih

theorem realizable_singleton (D : List Nat) (h : realizable D) (hl : D.length = 1) :
    D = [0] := by
  induction h with
  | single => rfl
  | join a b ha hb _ _ =>
    have h1 := realizable_length_pos a ha
    have h2 := realizable_length_pos b hb
    simp only [List.length_map, List.length_append] at hl
    omega
  | perm a b hp _ ih =>
    have := ih (by rw [hp.length_eq]; exact hl)
    rw [this] at hp
    exact List.perm_singleton.1 hp.symm

theorem has_deepest_pair_perm (D D' : List Nat) (hp : D.Perm D') (h : has_deepest_pair D) :
    has_deepest_pair D' := by
  obtain ⟨m, rest, h1, h2, h3⟩ := h
  exact ⟨m, rest, hp.symm.trans h1, fun d hd => h2 d (hp.mem_iff.2 hd), h3⟩

theorem has_deepest_pair_join (a b : List Nat) (m : Nat) (rest : List Nat)
    (h1 : a.Perm ((m + 1) :: (m + 1) :: rest)) (h2 : ∀ d ∈ a, d ≤ m + 1)
    (h3 : realizable (m :: rest)) (hb : realizable b) (hbound : ∀ d ∈ b, d ≤ m + 1) :
    has_deepest_pair ((a ++ b).map (fun d => d + 1)) := by
  refine ⟨m + 1, (rest ++ b).map (fun d => d + 1), ?_, ?_, ?_⟩
  · have := (h1.append_right b).map (fun d => d + 1)
    simpa using this
  · intro d hd
    obtain ⟨e, he, rfl⟩ := List.mem_map.1 hd
    rcases List.mem_append.1 he with he | he
    · have := h2 e he; omega
    · have := hbound e he; omega
  · have := realizable.join (m :: rest) b h3 hb
    simpa using this

theorem map_succ_append_comm (a b : List Nat) :
    ((b ++ a).map (fun d => d + 1)).Perm ((a ++ b).map (fun d => d + 1)) :=
  List.Perm.map _ List.perm_append_comm

/-- Sibling lemma: in the depth profile of a tree with at least two leaves, the
greatest depth occurs twice, and replacing two leaves of greatest depth by one
leaf a level higher gives the depth profile of a tree. -/
theorem realizable_deepest_pair (D : List Nat) (h : realizable D) (hl : 2 ≤ D.length) :
    has_deepest_pair D := by
  induction h with
  | single => simp at hl
  | perm a b hp _ ih =>
    exact has_deepest_pair_perm a b hp (ih (by rw [hp.length_eq]; exact hl))
  | join a b ha hb iha ihb =>
    by_cases h2a : 2 ≤ a.length
    · obtain ⟨ma, ra, a1, a2, a3⟩ := iha h2a
      by_cases h2b : 2 ≤ b.length
      · obtain ⟨mb, rb, b1, b2, b3⟩ := ihb h2b
        by_cases hm : mb ≤ ma
        · exact has_deepest_pair_join a b ma ra a1 a2 a3 hb
            (fun d hd => le_trans (b2 d hd) (by omega))
        · exact has_deepest_pair_perm _ _ (map_succ_append_comm a b)
            (has_deepest_pair_join b a mb rb b1 b2 b3 ha
              (fun d hd => le_trans (a2 d hd) (by omega)))
      · have hb0 : b = [0] :=
          realizable_singleton b hb (by have := realizable_length_pos b hb; omega)
        refine has_deepest_pair_join a b ma ra a1 a2 a3 hb ?_
        intro d hd
        rw [hb0, List.mem_singleton] at hd
        omega
    · have ha0 : a = [0] :=
        realizable_singleton a ha (by have := realizable_length_pos a ha; omega)
      by_cases h2b : 2 ≤ b.length
      · obtain ⟨mb, rb, b1, b2, b3⟩ := ihb h2b
        refine has_deepest_pair_perm _ _ (map_succ_append_comm a b)
          (has_deepest_pair_join b a mb rb b1 b2 b3 ha ?_)
        intro d hd
        rw [ha0, List.mem_singleton] at hd
        omega
      · have hb0 : b = [0] :=
          realizable_singleton b hb (by have := realizable_length_pos b hb; omega)
        subst ha0 hb0
        exact ⟨0, [], List.Perm.refl _, by simp, realizable.single⟩

/-! ## Optimality: exchanging weights -/

theorem pcost_cons (e : Int × Nat) (P : List (Int × Nat)) :
    pcost (e :: P) = e.1 * (e.2 : Int) + pcost P := by
  simp [pcost]

theorem pcost_perm (P Q : List (Int × Nat)) (h : P.Perm Q) : pcost P = pcost Q :=
  (h.map _).sum_eq

theorem exists_perm_cons_of_mem {α : Type} (x : α) (l : List α) (h : x ∈ l) :
    ∃ l', l.Perm (x :: l') := by
  obtain ⟨s, t, rfl⟩ := List.append_of_mem h
  exact ⟨s ++ t, List.perm_middle⟩

/-- Exchange step: an assignment can give the greatest depth to a least weight
without raising the cost. -/
theorem exists_min_at_deepest (P : List (Int × Nat)) (a : Int) (M : Nat)
    (ha : a ∈ P.map Prod.fst) (hamin : ∀ w ∈ P.map Prod.fst, a ≤ w)
    (hM : M ∈ P.map Prod.snd) (hMmax : ∀ d ∈ P.map Prod.snd, d ≤ M) :
    ∃ P1, (a :: P1.map Prod.fst).Perm (P.map Prod.fst) ∧
      (M :: P1.map Prod.snd).Perm (P.map Prod.snd) ∧
      a * (M : Int) + pcost P1 ≤ pcost P := by
  obtain ⟨⟨a', da⟩, hmem, hfst⟩ := List.mem_map.1 ha
  simp only at hfst
  subst hfst
  obtain ⟨Q, hP⟩ := exists_perm_cons_of_mem _ P hmem
  by_cases hda : da = M
  · subst hda
    refine ⟨Q, ?_, ?_, ?_⟩
    · exact (hP.map Prod.fst).symm
    · exact (hP.map Prod.snd).symm
    · rw [pcost_perm P _ hP, pcost_cons]
  · have hM2 : M ∈ Q.map Prod.snd := by
      have := (hP.map Prod.snd).mem_iff.1 hM
      rcases List.mem_cons.1 this with h | h
      · exact absurd h.symm hda
      · exact h
    obtain ⟨⟨x, dx⟩, hxmem, hx⟩ := List.mem_map.1 hM2
    simp only at hx
    subst hx
    obtain ⟨R, hQ⟩ := exists_perm_cons_of_mem _ Q hxmem
    have hPQ : P.Perm ((a', da) :: (x, dx) :: R) := hP.trans (hQ.cons _)
    refine ⟨(x, da) :: R, ?_, ?_, ?_⟩
    · exact (hPQ.map Prod.fst).symm
    · refine List.Perm.trans ?_ (hPQ.map Prod.snd).symm
      simp only [List.map_cons]
      exact List.Perm.swap _ _ _
    · rw [pcost_perm P _ hPQ, pcost_cons, pcost_cons, pcost_cons]
      simp only
      have h1 : a' ≤ x := hamin x ((hPQ.map Prod.fst).mem_iff.2 (by simp))
      have h2 : da ≤ dx := hMmax da ((hPQ.map Prod.snd).mem_iff.2 (by simp))
      have h2' : (da : Int) ≤ (dx : Int) := by exact_mod_cast h2
      nlinarith [mul_nonneg (sub_nonneg.2 h1) (sub_nonneg.2 h2')]

/-- Merging step on assignments: when `a` and `b` are two least weights of an
assignment whose depth profile is that of a tree with at least two leaves, there
is an assignment for the weights with `a` and `b` replaced by `a + b`, again with
the depth profile of a tree, that costs at least `a + b` less. -/
theorem exists_merged_assignment (P : List (Int × Nat)) (a b : Int) (W : List Int)
    (hW : (P.map Prod.fst).Perm (a :: b :: W))
    (hamin : ∀ w ∈ a :: b :: W, a ≤ w) (hbmin : ∀ w ∈ b :: W, b ≤ w)
    (hreal : realizable (P.map Prod.snd)) :
    ∃ P', realizable (P'.map Prod.snd) ∧ (P'.map Prod.fst).Perm ((a + b) :: W) ∧
      pcost P' + a + b ≤ pcost P := by
  have hlen : 2 ≤ (P.map Prod.snd).length := by
    rw [List.length_map, ← List.length_map P Prod.fst, hW.length_eq]
    simp
  obtain ⟨m, rest, hD, hmax, hr⟩ := realizable_deepest_pair _ hreal hlen
  obtain ⟨P1, hw1, hd1, hc1⟩ := exists_min_at_deepest P a (m + 1)
    (hW.mem_iff.2 (List.mem_cons_self _ _)) (fun w hw => hamin w (hW.mem_iff.1 hw))
    (hD.mem_iff.2 (List.mem_cons_self _ _)) hmax
  have hw1' : (P1.map Prod.fst).Perm (b :: W) := (hw1.trans hW).cons_inv
  have hd1' : (P1.map Prod.snd).Perm ((m + 1) :: rest) := (hd1.trans hD).cons_inv
  obtain ⟨P2, hw2, hd2, hc2⟩ := exists_min_at_deepest P1 b (m + 1)
    (hw1'.mem_iff.2 (List.mem_cons_self _ _)) (fun w hw => hbmin w (hw1'.mem_iff.1 hw))
    (hd1'.mem_iff.2 (List.mem_cons_self _ _))
    (fun d hd => hmax d (hd1.mem_iff.1 (List.mem_cons_of_mem _ hd)))
  have hw2' : (P2.map Prod.fst).Perm W := (hw2.trans hw1').cons_inv
  have hd2' : (P2.map Prod.snd).Perm rest := (hd2.trans hd1').cons_inv
  refine ⟨(a + b, m) :: P2, ?_, ?_, ?_⟩
  · exact realizable.perm _ _ (hd2'.cons m).symm hr
  · exact hw2'.cons _
  · rw [pcost_cons]
    simp only
    push_cast at hc1 hc2
    linarith

/-! ## Optimality: from a prefix-free code to a tree profile -/

theorem total_length_strip (G : List (Int × tree.wstring)) (hne : ∀ e ∈ G, e.2 ≠ []) :
    total_length (strip G) + G.length = total_length G := by
  induction G with
  | nil => rfl
  | cons e G ih =>
    have h1 := ih (fun x hx => hne x (List.mem_cons_of_mem _ hx))
    have h2 := hne e (List.mem_cons_self _ _)
    obtain ⟨c, t, hct⟩ := List.exists_cons_of_ne_nil h2
    simp only [total_length, strip, List.map_cons, List.sum_cons, List.length_cons, hct,
      List.tail_cons] at h1 ⊢
    omega

theorem ccost_strip (G : List (Int × tree.wstring)) (hne : ∀ e ∈ G, e.2 ≠ []) :
    ccost G = ccost (strip G) + (G.map Prod.fst).sum := by
  induction G with
  | nil => rfl
  | cons e G ih =>
    have h1 := ih (fun x hx => hne x (List.mem_cons_of_mem _ hx))
    have h2 := hne e (List.mem_cons_self _ _)
    obtain ⟨c, t, hct⟩ := List.exists_cons_of_ne_nil h2
    simp only [ccost, strip, List.map_cons, List.sum_cons, hct, List.tail_cons,
      List.length_cons] at h1 ⊢
    push_cast
    linarith

theorem strip_fst (G : List (Int × tree.wstring)) : (strip G).map Prod.fst = G.map Prod.fst := by
  simp [strip, List.map_map, Function.comp_def]

theorem strip_pairwise (G : List (Int × tree.wstring)) (h : tree.wchar_t)
    (hh : ∀ e ∈ G, ∃ t, e.2 = h :: t)
    (hpf : G.Pairwise (fun x y => prefix_free x.2 y.2)) :
    (strip G).Pairwise (fun x y => prefix_free x.2 y.2) := by
  unfold strip
  rw [List.pairwise_map]
  refine List.Pairwise.imp_of_mem ?_ hpf
  intro x y hx hy hxy
  obtain ⟨tx, hx2⟩ := hh x hx
  obtain ⟨ty, hy2⟩ := hh y hy
  simp only [prefix_free, hx2, hy2, List.tail_cons] at hxy ⊢
  constructor
  · intro hp
    exact hxy.1 ((List.prefix_cons_inj h).2 hp)
  · intro hp
    exact hxy.2 ((List.prefix_cons_inj h).2 hp)

theorem strip_binary (G : List (Int × tree.wstring))
    (hbin : ∀ e ∈ G, ∀ c ∈ e.2, c = 48 ∨ c = 49) :
    ∀ e ∈ strip G, ∀ c ∈ e.2, c = 48 ∨ c = 49 := by
  intro e he c hc
  obtain ⟨x, hx, rfl⟩ := List.mem_map.1 he
  exact hbin x hx c (List.mem_of_mem_tail hc)

theorem strip_nonneg (G : List (Int × tree.wstring)) (hw : ∀ e ∈ G, 0 ≤ e.1) :
    ∀ e ∈ strip G, 0 ≤ e.1 := by
  intro e he
  obtain ⟨x, hx, rfl⟩ := List.mem_map.1 he
  exact hw x hx

theorem sum_fst_nonneg (G : List (Int × tree.wstring)) (hw : ∀ e ∈ G, 0 ≤ e.1) :
    0 ≤ (G.map Prod.fst).sum := by
  apply List.sum_nonneg
  intro w hwm
  obtain ⟨e, he, rfl⟩ := List.mem_map.1 hwm
  exact hw e he

theorem pcost_append (P Q : List (Int × Nat)) : pcost (P ++ Q) = pcost P + pcost Q := by
  simp [pcost]

theorem pcost_deepen (P : List (Int × Nat)) :
    pcost (P.map (fun e => (e.1, e.2 + 1))) = pcost P + (P.map Prod.fst).sum := by
  induction P with
  | nil => rfl
  | cons e P ih =>
    simp only [List.map_cons, pcost_cons, ih, List.sum_cons]
    push_cast
    ring

theorem code_nonempty_of_pairwise (L : List (Int × tree.wstring))
    (hpf : L.Pairwise (fun x y => prefix_free x.2 y.2)) (hlen : 2 ≤ L.length) :
    ∀ e ∈ L, e.2 ≠ [] := by
  cases L with
  | nil => simp at hlen
  | cons x rest =>
    have hrest : rest ≠ [] := by
      intro h; subst h; simp at hlen
    obtain ⟨y, hy⟩ := List.exists_mem_of_ne_nil rest hrest
    rw [List.pairwise_cons] at hpf
    intro e he hnil
    rcases List.mem_cons.1 he with rfl | he
    · exact (hpf.1 y hy).1 (by rw [hnil]; exact List.nil_prefix)
    · exact (hpf.1 e he).2 (by rw [hnil]; exact List.nil_prefix)

/-- A code whose words all start with the same character costs no less than
the code with that character removed. -/
theorem ccost_strip_le (G : List (Int × tree.wstring)) (hne : ∀ e ∈ G, e.2 ≠ [])
    (hw : ∀ e ∈ G, 0 ≤ e.1) : ccost (strip G) ≤ ccost G := by
  rw [ccost_strip G hne]
  have := sum_fst_nonneg G hw
  linarith

theorem assignment_of_single (e : Int × tree.wstring) (hw : 0 ≤ e.1) :
    ∃ P : List (Int × Nat), realizable (P.map Prod.snd) ∧
      (P.map Prod.fst).Perm ([e].map Prod.fst) ∧ pcost P ≤ ccost [e] := by
  refine ⟨[(e.1, 0)], by simpa using realizable.single, by simp, ?_⟩
  simp only [pcost, ccost, List.map_cons, List.map_nil, List.sum_cons, List.sum_nil]
  have hl : (0 : Int) ≤ (e.2.length : Int) := Int.natCast_nonneg _
  have := mul_nonneg hw hl
  simpa using this

theorem eq_singleton_of_length (L : List (Int × tree.wstring)) (hne : L ≠ [])
    (hlen : ¬ 2 ≤ L.length) : ∃ e, L = [e] := by
  cases L with
  | nil => exact absurd rfl hne
  | cons e rest =>
    cases rest with
    | nil => exact ⟨e, rfl⟩
    | cons _ _ => simp at hlen

theorem ccost_perm (L L' : List (Int × tree.wstring)) (h : L.Perm L') : ccost L = ccost L' :=
  (h.map _).sum_eq

theorem ccost_append (L L' : List (Int × tree.wstring)) :
    ccost (L ++ L') = ccost L + ccost L' := by
  simp [ccost]

theorem total_length_perm (L L' : List (Int × tree.wstring)) (h : L.Perm L') :
    total_length L = total_length L' :=
  (h.map _).sum_eq

theorem total_length_append (L L' : List (Int × tree.wstring)) :
    total_length (L ++ L') = total_length L + total_length L' := by
  simp [total_length]

/-- A code with at least two words that all start with the character `h`: an
assignment for the code without that character serves the code itself. -/
theorem assignment_of_common_head (L : List (Int × tree.wstring)) (h : tree.wchar_t)
    (hh : ∀ e ∈ L, ∃ t, e.2 = h :: t) (hw : ∀ e ∈ L, 0 ≤ e.1)
    (P : List (Int × Nat)) (hP : (P.map Prod.fst).Perm ((strip L).map Prod.fst))
    (hc : pcost P ≤ ccost (strip L)) :
    (P.map Prod.fst).Perm (L.map Prod.fst) ∧ pcost P ≤ ccost L := by
  have hnon : ∀ e ∈ L, e.2 ≠ [] := by
    intro e he
    obtain ⟨t, ht⟩ := hh e he
    rw [ht]; simp
  refine ⟨by rw [← strip_fst]; exact hP, le_trans hc (ccost_strip_le L hnon hw)⟩

/-- From a prefix-free binary code to a tree: for a non-empty list of weighted
binary code words, pairwise prefix-free and of non-negative weights, there is
an assignment of depths to the same weights with the depth profile of a tree
and a cost not above the cost of the code. -/
theorem exists_assignment_of_code (n : Nat) (L : List (Int × tree.wstring))
    (hn : total_length L ≤ n) (hne : L ≠ [])
    (hw : ∀ e ∈ L, 0 ≤ e.1) (hbin : ∀ e ∈ L, ∀ c ∈ e.2, c = 48 ∨ c = 49)
    (hpf : L.Pairwise (fun x y => prefix_free x.2 y.2)) :
    ∃ P : List (Int × Nat), realizable (P.map Prod.snd) ∧
      (P.map Prod.fst).Perm (L.map Prod.fst) ∧ pcost P ≤ ccost L := by
  induction n generalizing L with
  | zero =>
    by_cases hlen : 2 ≤ L.length
    · exfalso
      have hnon := code_nonempty_of_pairwise L hpf hlen
      have := total_length_strip L hnon
      omega
    · obtain ⟨e, rfl⟩ := eq_singleton_of_length L hne hlen
      exact assignment_of_single e (hw e (List.mem_singleton_self e))
  | succ n ih =>
    by_cases hlen : 2 ≤ L.length
    · have hnon := code_nonempty_of_pairwise L hpf hlen
      have htot := total_length_strip L hnon
      have hhead : ∀ e ∈ L, (∃ t, e.2 = 48 :: t) ∨ (∃ t, e.2 = 49 :: t) := by
        intro e he
        obtain ⟨c, t, hct⟩ := List.exists_cons_of_ne_nil (hnon e he)
        rcases hbin e he c (by rw [hct]; exact List.mem_cons_self _ _) with h | h
        · exact Or.inl ⟨t, by rw [hct, h]⟩
        · exact Or.inr ⟨t, by rw [hct, h]⟩
      have hperm := List.filter_append_perm
        (fun e : Int × tree.wstring => decide (e.2.head? = some 48)) L
      have h0 : ∀ e ∈ L.filter (fun e : Int × tree.wstring => decide (e.2.head? = some 48)),
          ∃ t, e.2 = 48 :: t := by
        intro e he
        rw [List.mem_filter] at he
        rcases hhead e he.1 with h | ⟨t, ht⟩
        · exact h
        · have := he.2
          rw [ht] at this
          simp at this
      have h1 : ∀ e ∈ L.filter
          (fun e : Int × tree.wstring => !decide (e.2.head? = some 48)),
          ∃ t, e.2 = 49 :: t := by
        intro e he
        rw [List.mem_filter] at he
        rcases hhead e he.1 with ⟨t, ht⟩ | h
        · have := he.2
          rw [ht] at this
          simp at this
        · exact h
      by_cases hL0 : L.filter (fun e : Int × tree.wstring => decide (e.2.head? = some 48)) = []
      · rw [hL0, List.nil_append] at hperm
        have hh : ∀ e ∈ L, ∃ t, e.2 = 49 :: t := fun e he => h1 e (hperm.mem_iff.2 he)
        obtain ⟨P, hr, hP, hc⟩ := ih (strip L) (by omega)
          (by unfold strip; simpa using hne) (strip_nonneg L hw) (strip_binary L hbin)
          (strip_pairwise L 49 hh hpf)
        exact ⟨P, hr, assignment_of_common_head L 49 hh hw P hP hc⟩
      · by_cases hL1 : L.filter
            (fun e : Int × tree.wstring => !decide (e.2.head? = some 48)) = []
        · rw [hL1, List.append_nil] at hperm
          have hh : ∀ e ∈ L, ∃ t, e.2 = 48 :: t := fun e he => h0 e (hperm.mem_iff.2 he)
          obtain ⟨P, hr, hP, hc⟩ := ih (strip L) (by omega)
            (by unfold strip; simpa using hne) (strip_nonneg L hw) (strip_binary L hbin)
            (strip_pairwise L 48 hh hpf)
          exact ⟨P, hr, assignment_of_common_head L 48 hh hw P hP hc⟩
        · generalize hG0 : L.filter
            (fun e : Int × tree.wstring => decide (e.2.head? = some 48)) = G0 at *
          generalize hG1 : L.filter
            (fun e : Int × tree.wstring => !decide (e.2.head? = some 48)) = G1 at *
          have hsub0 : ∀ e ∈ G0, e ∈ L := fun e he =>
            hperm.mem_iff.1 (List.mem_append_left _ he)
          have hsub1 : ∀ e ∈ G1, e ∈ L := fun e he =>
            hperm.mem_iff.1 (List.mem_append_right _ he)
          have hnon0 : ∀ e ∈ G0, e.2 ≠ [] := fun e he => hnon e (hsub0 e he)
          have hnon1 : ∀ e ∈ G1, e.2 ≠ [] := fun e he => hnon e (hsub1 e he)
          have ht0 := total_length_strip G0 hnon0
          have ht1 := total_length_strip G1 hnon1
          have htsum : total_length G0 + total_length G1 = total_length L := by
            rw [← total_length_append]; exact total_length_perm _ _ hperm
          have hl0 : 1 ≤ G0.length := List.length_pos.2 hL0
          have hl1 : 1 ≤ G1.length := List.length_pos.2 hL1
          have hpf' : (G0 ++ G1).Pairwise (fun x y => prefix_free x.2 y.2) :=
            (hperm.pairwise_iff (fun {x y} hxy => ⟨hxy.2, hxy.1⟩)).2 hpf
          have hpf0 := (List.pairwise_append.1 hpf').1
          have hpf1 := (List.pairwise_append.1 hpf').2.1
          obtain ⟨P0, hr0, hP0, hc0⟩ := ih (strip G0) (by omega)
            (by unfold strip; simpa using hL0)
            (strip_nonneg G0 (fun e he => hw e (hsub0 e he)))
            (strip_binary G0 (fun e he => hbin e (hsub0 e he)))
            (strip_pairwise G0 48 h0 hpf0)
          obtain ⟨P1, hr1, hP1, hc1⟩ := ih (strip G1) (by omega)
            (by unfold strip; simpa using hL1)
            (strip_nonneg G1 (fun e he => hw e (hsub1 e he)))
            (strip_binary G1 (fun e he => hbin e (hsub1 e he)))
            (strip_pairwise G1 49 h1 hpf1)
          rw [strip_fst] at hP0 hP1
          refine ⟨(P0 ++ P1).map (fun e => (e.1, e.2 + 1)), ?_, ?_, ?_⟩
          · have := realizable.join _ _ hr0 hr1
            simpa [List.map_map, Function.comp_def] using this
          · have hPG : (G0.map Prod.fst ++ G1.map Prod.fst).Perm (L.map Prod.fst) := by
              have := hperm.map Prod.fst
              rwa [List.map_append] at this
            have hfst : ((P0 ++ P1).map (fun e => (e.1, e.2 + 1))).map Prod.fst =
                P0.map Prod.fst ++ P1.map Prod.fst := by
              rw [List.map_map, ← List.map_append]
              rfl
            rw [hfst]
            exact (hP0.append hP1).trans hPG
          · rw [pcost_deepen, pcost_append, List.map_append, List.sum_append,
              ← ccost_perm _ _ hperm, ccost_append, ccost_strip G0 hnon0, ccost_strip G1 hnon1,
              hP0.sum_eq, hP1.sum_eq]
            linarith
    · obtain ⟨e, rfl⟩ := eq_singleton_of_length L hne hlen
      exact assignment_of_single e (hw e (List.mem_singleton_self e))

/-! ## Optimality: the merge loop -/

namespace tree

theorem cost_at_succ (t : node) (d : Nat) : cost_at t (d + 1) = cost_at t d + weight t := by
  induction t generalizing d with
  | nullptr => simp [cost_at, weight]
  | mk v f l r ihl ihr =>
    simp only [cost_at, weight, ihl (d + 1), ihr (d + 1)]
    split_ifs
    · push_cast; ring
    · ring

theorem cost_internal (v : wchar_t) (f : Int) (l r : node) (hl : l ≠ node.nullptr) :
    cost (node.mk v f l r) = cost l + cost r + weight l + weight r := by
  simp only [cost, cost_at, hl, false_and, if_false, zero_add]
  rw [cost_at_succ, cost_at_succ]
  ring

theorem weight_internal (v : wchar_t) (f : Int) (l r : node) (hl : l ≠ node.nullptr) :
    weight (node.mk v f l r) = weight l + weight r := by
  simp [weight, hl]

theorem sum_nonneg_of_mem (M : Multiset node) (h : ∀ t ∈ M, 0 ≤ t.frequency) :
    0 ≤ (M.map node.frequency).sum := by
  apply Multiset.sum_nonneg
  intro w hw
  obtain ⟨t, ht, rfl⟩ := Multiset.mem_map.1 hw
  exact h t ht

theorem optimal_inv_merge (total V : Int) (htotal : total < 2 ^ 31)
    (M M' : Multiset node) (h : optimal_inv total V M) (hm : merge_of M M') :
    optimal_inv total V M' := by
  obtain ⟨l, r, rest, rfl, rfl, hlmin, hrmin⟩ := merge_of_decomp M M' hm
  obtain ⟨hwf, hsum, P, hreal, hPw, hcost⟩ := h
  obtain ⟨hpl, hfl, hl0⟩ := hwf l (by simp)
  obtain ⟨hpr, hfr, hr0⟩ := hwf r (by simp)
  have hrest0 : 0 ≤ (rest.map node.frequency).sum :=
    sum_nonneg_of_mem rest (fun t ht => (hwf t (by simp [ht])).2.2)
  simp only [Multiset.map_cons, Multiset.sum_cons] at hsum hPw hcost
  have hwrap : int_wrap (l.frequency + r.frequency) = l.frequency + r.frequency :=
    int_wrap_of_range _ (by linarith) (by linarith)
  rw [hwrap]
  have hlne := proper_ne_nullptr l hpl
  refine ⟨?_, ?_, ?_⟩
  · intro t ht
    rcases Multiset.mem_cons.1 ht with rfl | ht
    · refine ⟨proper.internal _ _ _ hpl hpr, ?_, ?_⟩
      · rw [weight_internal _ _ _ _ hlne, ← hfl, ← hfr]; rfl
      · show 0 ≤ l.frequency + r.frequency
        linarith
    · exact hwf t (by simp [ht])
  · simp only [Multiset.map_cons, Multiset.sum_cons]
    show l.frequency + r.frequency + _ = total
    linarith
  · have hW : (P.map Prod.fst).Perm
        (l.frequency :: r.frequency :: (rest.map node.frequency).toList) := by
      rw [← Multiset.coe_eq_coe, hPw, ← Multiset.cons_coe, ← Multiset.cons_coe,
        Multiset.coe_toList]
    have hmemW : ∀ w ∈ (rest.map node.frequency).toList, ∃ t ∈ rest, t.frequency = w := by
      intro w hw
      rw [Multiset.mem_toList] at hw
      obtain ⟨t, ht, rfl⟩ := Multiset.mem_map.1 hw
      exact ⟨t, ht, rfl⟩
    obtain ⟨P', hreal', hPw', hcost'⟩ := exists_merged_assignment P l.frequency r.frequency
      (rest.map node.frequency).toList hW
      (by
        intro w hw
        rcases List.mem_cons.1 hw with rfl | hw
        · exact le_refl _
        rcases List.mem_cons.1 hw with rfl | hw
        · exact hlmin r (by simp)
        · obtain ⟨t, ht, rfl⟩ := hmemW w hw
          exact hlmin t (by simp [ht]))
      (by
        intro w hw
        rcases List.mem_cons.1 hw with rfl | hw
        · exact le_refl _
        · obtain ⟨t, ht, rfl⟩ := hmemW w hw
          exact hrmin t (by simp [ht]))
      hreal
    refine ⟨P', hreal', ?_, ?_⟩
    · rw [Multiset.map_cons, Multiset.coe_eq_coe.2 hPw', ← Multiset.cons_coe,
        Multiset.coe_toList]
      rfl
    · rw [Multiset.map_cons, Multiset.sum_cons, cost_internal _ _ _ _ hlne, ← hfl, ← hfr]
      linarith

end tree

namespace tree

theorem pcost_nonneg (P : List (Int × Nat)) (h : ∀ w ∈ P.map Prod.fst, 0 ≤ w) :
    0 ≤ pcost P := by
  unfold pcost
  apply List.sum_nonneg
  intro x hx
  obtain ⟨e, he, rfl⟩ := List.mem_map.1 hx
  exact mul_nonneg (h e.1 (List.mem_map_of_mem Prod.fst he)) (Int.natCast_nonneg _)

theorem optimal_inv_initial (iswprint : wchar_t → Bool) (frequencies : Nat → Int)
    (hnn : ∀ i, 0 ≤ frequencies i) (P : List (Int × Nat)) (hreal : realizable (P.map Prod.snd))
    (hP : (P.map Prod.fst).Perm ((symbols iswprint frequencies).map frequencies)) :
    optimal_inv ((symbols iswprint frequencies).map frequencies).sum (pcost P)
      (((symbols iswprint frequencies).map (fun i => create_node i (frequencies i)) : List node)
        : Multiset node) := by
  have hfreq : ∀ l : List Nat, ((l.map (fun i => create_node i (frequencies i)) : List node)
      : Multiset node).map node.frequency = ((l.map frequencies : List Int) : Multiset Int) := by
    intro l
    rw [Multiset.map_coe, List.map_map]
    rfl
  have hcost : ∀ l : List Nat, ((((l.map (fun i => create_node i (frequencies i)) : List node)
      : Multiset node).map cost).sum) = 0 := by
    intro l
    induction l with
    | nil => rfl
    | cons i is ih =>
      rw [List.map_cons, ← Multiset.cons_coe, Multiset.map_cons, Multiset.sum_cons, ih]
      simp [cost, cost_at, create_node]
  refine ⟨?_, ?_, P, hreal, ?_, ?_⟩
  · intro t ht
    simp only [Multiset.mem_coe, List.mem_map] at ht
    obtain ⟨i, _, rfl⟩ := ht
    refine ⟨proper.leaf _ _, ?_, hnn i⟩
    simp [create_node, weight, node.frequency]
  · rw [hfreq, Multiset.sum_coe]
  · rw [hfreq]
    exact Multiset.coe_eq_coe.2 hP
  · rw [hcost, zero_add]

/-- The tree built for a table of non-negative counts that sum to less than
`2 ^ 31` costs no more than any assignment of depths to the counts that has the
depth profile of a tree. -/
theorem cost_build_le (pq : priority_queue) (iswprint : wchar_t → Bool)
    (frequencies : Nat → Int) (hnn : ∀ i, 0 ≤ frequencies i)
    (hsum : ((symbols iswprint frequencies).map frequencies).sum < 2 ^ 31)
    (P : List (Int × Nat)) (hreal : realizable (P.map Prod.snd))
    (hP : (P.map Prod.fst).Perm ((symbols iswprint frequencies).map frequencies)) :
    cost (build_huffman_tree pq iswprint frequencies) ≤ pcost P := by
  have h := build_huffman_tree_spec pq iswprint frequencies
    (optimal_inv ((symbols iswprint frequencies).map frequencies).sum (pcost P))
    (optimal_inv_merge _ _ hsum)
    (optimal_inv_initial iswprint frequencies hnn P hreal hP)
  by_cases hs : symbols iswprint frequencies = []
  · rw [h.1 hs]
    have : 0 ≤ pcost P := by
      apply pcost_nonneg
      intro w hw
      rw [hs] at hP
      have := hP.mem_iff.1 hw
      simp at this
    simpa [cost, cost_at] using this
  · obtain ⟨hwf, -, Q, -, hQw, hQc⟩ := h.2 hs
    have hQ0 : 0 ≤ pcost Q := by
      apply pcost_nonneg
      intro w hw
      have : w ∈ ((Q.map Prod.fst : List Int) : Multiset Int) := Multiset.mem_coe.2 hw
      rw [hQw, Multiset.map_singleton, Multiset.mem_singleton] at this
      rw [this]
      exact (hwf _ (Multiset.mem_singleton_self _)).2.2
    rw [Multiset.map_singleton, Multiset.sum_singleton] at hQc
    linarith

theorem leaf_info_paths (t : node) (pfx : wstring) :
    (leaf_info t pfx).map (fun e => (e.1, e.2.2)) = leaf_paths t pfx := by
  induction t generalizing pfx with
  | nullptr => rfl
  | mk v f l r ihl ihr =>
    simp only [leaf_info, leaf_paths, List.map_append, ihl, ihr]
    split_ifs <;> rfl

theorem leaf_info_leaves (t : node) (pfx : wstring) :
    (leaf_info t pfx).map (fun e => (e.1, e.2.1)) = leaves t := by
  induction t generalizing pfx with
  | nullptr => rfl
  | mk v f l r ihl ihr =>
    simp only [leaf_info, leaves, List.map_append, ihl, ihr]
    split_ifs <;> rfl

theorem leaf_info_symbols (t : node) (pfx : wstring) :
    (leaf_info t pfx).map (fun e => e.1) = leaf_symbols t := by
  induction t generalizing pfx with
  | nullptr => rfl
  | mk v f l r ihl ihr =>
    simp only [leaf_info, leaf_symbols, List.map_append, ihl, ihr]
    split_ifs <;> rfl

theorem cost_at_eq_sum (t : node) (pfx : wstring) :
    cost_at t pfx.length =
      ((leaf_info t pfx).map (fun e => e.2.1 * (e.2.2.length : Int))).sum := by
  induction t generalizing pfx with
  | nullptr => rfl
  | mk v f l r ihl ihr =>
    have hl := ihl (pfx ++ [48])
    have hr := ihr (pfx ++ [49])
    simp only [List.length_append, List.length_singleton] at hl hr
    simp only [cost_at, leaf_info, List.map_append, List.sum_append, hl, hr]
    split_ifs <;> simp

/-- The weighted length of the generated codes over the leaf symbols of a tree
is the cost of the tree. -/
theorem weighted_code_length_eq_cost (t : node) (hd : (leaf_symbols t).Nodup)
    (g : Nat → Int) (hg : ∀ e ∈ leaves t, g e.1 = e.2) :
    weighted_code_length g (code_of (leaf_paths t [])) (leaf_symbols t) = cost t := by
  unfold weighted_code_length cost
  have hc := cost_at_eq_sum t []
  rw [List.length_nil] at hc
  rw [hc, ← leaf_info_symbols t [], List.map_map]
  refine congrArg List.sum (List.map_congr_left (fun e he => ?_))
  have h1 : (e.1, e.2.1) ∈ leaves t := by
    rw [← leaf_info_leaves t []]
    exact List.mem_map_of_mem (fun e => (e.1, e.2.1)) he
  have h2 : (e.1, e.2.2) ∈ leaf_paths t [] := by
    rw [← leaf_info_paths t []]
    exact List.mem_map_of_mem (fun e => (e.1, e.2.2)) he
  have h3 : unordered_map.find (leaf_paths t []) e.1 = some e.2.2 :=
    (find_eq_some_iff _ (by rw [leaf_paths_fst]; exact hd) _ _).2 h2
  have h4 := hg _ h1
  simp only at h4
  simp only [Function.comp_def, code_of, h3, Option.getD_some, h4]

theorem weighted_code_length_perm (g : Nat → Int) (code : wchar_t → wstring)
    (l l' : List wchar_t) (h : l.Perm l') :
    weighted_code_length g code l = weighted_code_length g code l' :=
  (h.map _).sum_eq

/-- The weighted length of the code table of a frequency table is the cost of
the built tree. -/
theorem weighted_code_length_huffman (pq : priority_queue) (iswprint : wchar_t → Bool)
    (frequencies : Nat → Int) :
    weighted_code_length frequencies (code_of (huffman_codes pq iswprint frequencies))
      (symbols iswprint frequencies) = cost (build_huffman_tree pq iswprint frequencies) := by
  rw [huffman_codes_eq,
    ← weighted_code_length_perm _ _ _ _ (leaf_symbols_perm pq iswprint frequencies)]
  apply weighted_code_length_eq_cost _ (leaf_symbols_nodup pq iswprint frequencies)
  intro e he
  have := (leaves_perm pq iswprint frequencies).mem_iff.1 he
  obtain ⟨i, _, rfl⟩ := List.mem_map.1 this
  rfl

end tree

/-! ## Optimality of the generated code -/

namespace tree

theorem ccost_eq_weighted (frequencies : Nat → Int) (alt : wchar_t → wstring)
    (syms : List wchar_t) :
    ccost (syms.map (fun s => (frequencies s, alt s))) =
      weighted_code_length frequencies alt syms := by
  unfold ccost weighted_code_length
  rw [List.map_map]
  rfl

/-- C1 (as amended): for every frequency table of non-negative counts that add
up to less than `2 ^ 31`, the weighted code length of the codes generated from
the built tree, the sum over the symbols `s` of
`frequency(s) * length(codes[s])`, is at most the weighted code length of every
binary code assignment on the same symbols in which no code is a prefix of the
code of another symbol. -/
theorem huffman_codes_optimal (pq : priority_queue) (iswprint : wchar_t → Bool)
    (frequencies : Nat → Int) (hnn : ∀ i, 0 ≤ frequencies i)
    (hsum : ((symbols iswprint frequencies).map frequencies).sum < 2 ^ 31)
    (alt : wchar_t → wstring)
    (hbin : ∀ s ∈ symbols iswprint frequencies, ∀ c ∈ alt s, c = 48 ∨ c = 49)
    (hpf : ∀ s ∈ symbols iswprint frequencies, ∀ s' ∈ symbols iswprint frequencies,
      s ≠ s' → ¬ alt s <+: alt s') :
    weighted_code_length frequencies (code_of (huffman_codes pq iswprint frequencies))
        (symbols iswprint frequencies) ≤
      weighted_code_length frequencies alt (symbols iswprint frequencies) := by
  rw [weighted_code_length_huffman]
  by_cases hs : symbols iswprint frequencies = []
  · rw [(build_huffman_tree_leaves pq iswprint frequencies).1 hs, hs]
    simp [cost, cost_at, weighted_code_length]
  · have hpair : ((symbols iswprint frequencies).map
        (fun s => (frequencies s, alt s))).Pairwise (fun x y => prefix_free x.2 y.2) := by
      rw [List.pairwise_map]
      refine List.Pairwise.imp_of_mem ?_ (symbols_nodup iswprint frequencies)
      intro s s' hmem hmem' hne
      exact ⟨hpf s hmem s' hmem' hne, hpf s' hmem' s hmem (Ne.symm hne)⟩
    obtain ⟨P, hreal, hP, hc⟩ := exists_assignment_of_code _
      ((symbols iswprint frequencies).map (fun s => (frequencies s, alt s))) (le_refl _)
      (by simpa using hs)
      (by
        intro e he
        obtain ⟨s, _, rfl⟩ := List.mem_map.1 he
        exact hnn s)
      (by
        intro e he
        obtain ⟨s, hsm, rfl⟩ := List.mem_map.1 he
        exact hbin s hsm)
      hpair
    rw [List.map_map] at hP
    have hle := cost_build_le pq iswprint frequencies hnn hsum P hreal hP
    rw [ccost_eq_weighted] at hc
    exact le_trans hle hc

end tree

theorem aaabbc_code_binary :
    ∀ s ∈ tree.symbols ascii_print aaabbc_table, ∀ c ∈ two_bit_code s, c = 48 ∨ c = 49 := by
  rw [aaabbc_symbols]
  decide

theorem aaabbc_code_prefix_free :
    ∀ s ∈ tree.symbols ascii_print aaabbc_table, ∀ s' ∈ tree.symbols ascii_print aaabbc_table,
      s ≠ s' → ¬ two_bit_code s <+: two_bit_code s' := by
  rw [aaabbc_symbols]
  decide

theorem aaabbc_sum : ((tree.symbols ascii_print aaabbc_table).map aaabbc_table).sum < 2 ^ 31 := by
  rw [aaabbc_symbols]
  decide

theorem huffman_codes_optimal_witness :
    ((∀ i, 0 ≤ aaabbc_table i) ∧
      ((tree.symbols ascii_print aaabbc_table).map aaabbc_table).sum < 2 ^ 31 ∧
      (∀ s ∈ tree.symbols ascii_print aaabbc_table, ∀ c ∈ two_bit_code s, c = 48 ∨ c = 49) ∧
      (∀ s ∈ tree.symbols ascii_print aaabbc_table,
        ∀ s' ∈ tree.symbols ascii_print aaabbc_table,
          s ≠ s' → ¬ two_bit_code s <+: two_bit_code s')) ∧
    weighted_code_length aaabbc_table
        (tree.code_of (tree.huffman_codes list_queue ascii_print aaabbc_table))
        (tree.symbols ascii_print aaabbc_table) ≤
      weighted_code_length aaabbc_table two_bit_code (tree.symbols ascii_print aaabbc_table) :=
  ⟨⟨aaabbc_table_nonneg, aaabbc_sum, aaabbc_code_binary, aaabbc_code_prefix_free⟩,
    tree.huffman_codes_optimal list_queue ascii_print aaabbc_table aaabbc_table_nonneg aaabbc_sum
      two_bit_code aaabbc_code_binary aaabbc_code_prefix_free⟩

theorem big_table_symbols : tree.symbols ascii_print big_table = [97, 98, 99, 100] := by
  apply tree.symbols_eq
  · decide
  · intro i
    simp only [big_table, ascii_print, tree.UNICODE_RANGE, List.mem_cons, List.mem_singleton,
      List.not_mem_nil, or_false, decide_eq_true_eq]
    constructor
    · rintro (rfl | rfl | rfl | rfl) <;> simp
    · rintro ⟨_, h, _⟩
      by_contra hne
      simp only [not_or] at hne
      simp [hne.1, hne.2.1, hne.2.2.1, hne.2.2.2] at h

theorem big_table_cost (pq : tree.priority_queue) :
    tree.cost (tree.build_huffman_tree pq ascii_print big_table) = 9663676419 := by
  have h := tree.build_huffman_tree_possible pq ascii_print big_table _ big_table_symbols
    (by decide)
  have hall : ∀ t ∈ tree.possible_roots 4
      ([97, 98, 99, 100].map (fun i => tree.create_node i (big_table i))),
      tree.cost t = 9663676419 := by
    decide
  exact hall _ h

theorem big_table_bounds : ∀ i, 0 ≤ big_table i ∧ big_table i < 2 ^ 31 := by
  intro i
  unfold big_table
  split_ifs <;> norm_num

/-- C1 (counterexample): the table with counts `2 ^ 30`, `2 ^ 30`, `2 ^ 30 + 1`,
`2 ^ 30 + 1` for `a`, `b`, `c`, `d` holds representable positive counts; the
first merge adds `2 ^ 30 + 2 ^ 30`, which wraps to `-2 ^ 31`; for every queue
implementation the generated codes have weighted length `9 * 2 ^ 30 + 3`, while
the two-bit code, binary and prefix-free, has weighted length `8 * 2 ^ 30 + 4`. -/
theorem huffman_codes_not_optimal_on_overflow :
    (∀ i, 0 ≤ big_table i ∧ big_table i < 2 ^ 31) ∧
    (∀ s ∈ tree.symbols ascii_print big_table, ∀ c ∈ two_bit_code s, c = 48 ∨ c = 49) ∧
    (∀ s ∈ tree.symbols ascii_print big_table, ∀ s' ∈ tree.symbols ascii_print big_table,
      s ≠ s' → ¬ two_bit_code s <+: two_bit_code s') ∧
    weighted_code_length big_table two_bit_code (tree.symbols ascii_print big_table)
      = 8589934596 ∧
    ∀ pq : tree.priority_queue,
      weighted_code_length big_table
        (tree.code_of (tree.huffman_codes pq ascii_print big_table))
        (tree.symbols ascii_print big_table) = 9663676419 ∧
      ¬ weighted_code_length big_table
          (tree.code_of (tree.huffman_codes pq ascii_print big_table))
          (tree.symbols ascii_print big_table) ≤
        weighted_code_length big_table two_bit_code (tree.symbols ascii_print big_table) := by
  have h2 : weighted_code_length big_table two_bit_code (tree.symbols ascii_print big_table)
      = 8589934596 := by
    rw [big_table_symbols]
    decide
  refine ⟨big_table_bounds, ?_, ?_, h2, fun pq => ?_⟩
  · rw [big_table_symbols]; decide
  · rw [big_table_symbols]; decide
  · have h1 : weighted_code_length big_table
        (tree.code_of (tree.huffman_codes pq ascii_print big_table))
        (tree.symbols ascii_print big_table) = 9663676419 := by
      rw [tree.weighted_code_length_huffman]
      exact big_table_cost pq
    refine ⟨h1, ?_⟩
    rw [h1, h2]
    decide

/-! ## Compression ratio, dropped symbols, bounds of the counting loop -/

theorem comparacao_zero_original (compressed_size_bytes : Nat) :
    comparacao compressed_size_bytes 0 =
      if compressed_size_bytes = 0 then double.nan else double.inf false := by
  unfold comparacao
  by_cases h : compressed_size_bytes = 0
  · subst h
    simp [double.div, double.mul]
  · have hq : ¬ (compressed_size_bytes : ℚ) = 0 := by exact_mod_cast h
    have hneg : ¬ (compressed_size_bytes : ℚ) < 0 := not_lt.2 (Nat.cast_nonneg _)
    simp [double.div, double.mul, h, hq, hneg]

/-- C11 (as amended): when the original size in bytes is 0, the ratio computed
by `main` and by `generate_csv` is a NaN for the compressed size 0 and the
positive infinity for every positive compressed size; it is never finite, and
it is the value streamed to the console report and to the CSV. -/
theorem ratio_of_zero_original (compressed_size : Nat) :
    comparacao compressed_size 0 =
      (if compressed_size = 0 then double.nan else double.inf false) ∧
    comparison 0 (compressed_size : Int) =
      (if compressed_size = 0 then double.nan else double.inf false) ∧
    (comparacao compressed_size 0).is_finite = false ∧
    (comparison 0 (compressed_size : Int)).is_finite = false := by
  have h1 := comparacao_zero_original compressed_size
  have h2 : comparison 0 (compressed_size : Int) = comparacao compressed_size 0 := by
    unfold comparison comparacao
    simp
  refine ⟨h1, by rw [h2, h1], ?_, ?_⟩
  · rw [h1]; split_ifs <;> rfl
  · rw [h2, h1]; split_ifs <;> rfl

/-- C11 (counterexample): for the empty file, with original size 0 and
compressed size 0, both computations yield a NaN; with original size 0 and
compressed size 5, `generate_csv` computes the positive infinity. -/
theorem ratio_nan_and_infinity :
    comparacao 0 0 = double.nan ∧ comparison 0 0 = double.nan ∧
      comparison 0 5 = double.inf false := by
  refine ⟨?_, ?_, ?_⟩
  · simp [comparacao, double.div, double.mul]
  · simp [comparison, double.div, double.mul]
  · norm_num [comparison, double.div, double.mul]

theorem filter_isSome_filter (text : tree.wstring) (codes : tree.unordered_map) :
    (text.filter (fun ch => (codes.find ch).isSome)).filter (fun ch => (codes.find ch).isSome) =
      text.filter (fun ch => (codes.find ch).isSome) := by
  rw [List.filter_filter]
  congr 1
  funext ch
  simp

/-- C12 (as amended): for every text and code table, `compress_file` skips the
symbols that have no code and encodes all the others, in order; its result is
the encoding of the text with the skipped symbols taken out, and the function
returns nothing else. -/
theorem compress_file_drops_silently (text : tree.wstring) (codes : tree.unordered_map) :
    compress_file text codes =
      ((text.filter (fun ch => (codes.find ch).isSome)).map
        (fun ch => tree.code_of codes ch)).flatten ∧
    compress_file text codes =
      compress_file (text.filter (fun ch => (codes.find ch).isSome)) codes := by
  have h : ∀ t : tree.wstring, compress_file t codes =
      ((t.filter (fun ch => (codes.find ch).isSome)).map
        (fun ch => tree.code_of codes ch)).flatten := by
    intro t
    unfold compress_file
    rw [compress_file_foldl]
    exact List.nil_append _
  refine ⟨h text, ?_⟩
  rw [h text, h (text.filter (fun ch => (codes.find ch).isSome)), filter_isSome_filter]

/-- C12 (counterexample): with the code table of `aaabbc`, the texts `ax` and
`axx` drop one and two symbols, and `compress_file` returns the same string for
both. -/
theorem dropped_count_not_observable :
    dropped_count [97, 120] [(97, [48]), (99, [49, 48]), (98, [49, 49])] = 1 ∧
    dropped_count [97, 120, 120] [(97, [48]), (99, [49, 48]), (98, [49, 49])] = 2 ∧
    compress_file [97, 120] [(97, [48]), (99, [49, 48]), (98, [49, 49])] =
      compress_file [97, 120, 120] [(97, [48]), (99, [49, 48]), (98, [49, 49])] := by
  decide

/-- C13 (failing input): the code point `U+1F600` is printable and is not below
`UNICODE_RANGE`; on the one-character input made of it the counting loop
accesses `cont[128512]`, outside the array, while the empty input leaves the
table at zero. -/
theorem count_loop_out_of_bounds :
    wide_print 128512 = true ∧ ¬ 128512 < tree.UNICODE_RANGE ∧
    count_loop wide_print [128512] (fun _ => 0, []) = none ∧
    count_loop wide_print [] (fun _ => 0, []) = some (fun _ => 0, []) := by
  refine ⟨by decide, by decide, ?_, rfl⟩
  rw [count_loop, if_pos (by decide), if_neg (by decide)]

/-! ## The scenario `aaabbc` -/

theorem aaabbc_symbols_of (iswprint : tree.wchar_t → Bool) (ha : iswprint 97 = true)
    (hb : iswprint 98 = true) (hc : iswprint 99 = true) :
    tree.symbols iswprint aaabbc_table = [97, 98, 99] := by
  apply tree.symbols_eq
  · decide
  · intro i
    simp only [aaabbc_table, tree.UNICODE_RANGE, List.mem_cons, List.mem_singleton,
      List.not_mem_nil, or_false]
    constructor
    · rintro (rfl | rfl | rfl)
      · exact ⟨by norm_num, by norm_num, ha⟩
      · exact ⟨by norm_num, by norm_num, hb⟩
      · exact ⟨by norm_num, by norm_num, hc⟩
    · rintro ⟨_, h, _⟩
      by_contra hne
      simp only [not_or] at hne
      simp [hne.1, hne.2.1, hne.2.2] at h

/-- The two trees that the build can return for `aaabbc`: the last merge joins
the leaf of `a` and the node over `c` and `b`, both of weight 3, in either
order. -/
theorem aaabbc_roots (pq : tree.priority_queue) (iswprint : tree.wchar_t → Bool)
    (ha : iswprint 97 = true) (hb : iswprint 98 = true) (hc : iswprint 99 = true) :
    tree.build_huffman_tree pq iswprint aaabbc_table =
        tree.node.mk 0 6
          (tree.node.mk 0 3 (tree.node.mk 99 1 tree.node.nullptr tree.node.nullptr)
            (tree.node.mk 98 2 tree.node.nullptr tree.node.nullptr))
          (tree.node.mk 97 3 tree.node.nullptr tree.node.nullptr) ∨
      tree.build_huffman_tree pq iswprint aaabbc_table = aaabbc_tree_node := by
  have h := tree.build_huffman_tree_possible pq iswprint aaabbc_table _
    (aaabbc_symbols_of iswprint ha hb hc) (by decide)
  have hroots : tree.possible_roots 3
      ([97, 98, 99].map (fun i => tree.create_node i (aaabbc_table i))) =
      [tree.node.mk 0 6
          (tree.node.mk 0 3 (tree.node.mk 99 1 tree.node.nullptr tree.node.nullptr)
            (tree.node.mk 98 2 tree.node.nullptr tree.node.nullptr))
          (tree.node.mk 97 3 tree.node.nullptr tree.node.nullptr),
        aaabbc_tree_node] := by
    decide
  have hlen : ([97, 98, 99] : List Nat).length = 3 := rfl
  rw [hlen, hroots] at h
  simpa using h

/-- C14: for the counts `a:3, b:2, c:1`, whatever the queue implementation and
for every printable predicate that accepts the three letters, the built tree
has 3 leaves, the code of `a` is one bit, the codes of `b` and `c` have two bits
and start with the same bit, the complement of the code of `a`, and the
encoding of `aaabbc` has exactly 9 bits. -/
theorem aaabbc_scenario (pq : tree.priority_queue) (iswprint : tree.wchar_t → Bool)
    (ha : iswprint 97 = true) (hb : iswprint 98 = true) (hc : iswprint 99 = true) :
    tree.leaf_count (tree.build_huffman_tree pq iswprint aaabbc_table) = 3 ∧
    (tree.code_of (tree.huffman_codes pq iswprint aaabbc_table) 97).length = 1 ∧
    (tree.code_of (tree.huffman_codes pq iswprint aaabbc_table) 98).length = 2 ∧
    (tree.code_of (tree.huffman_codes pq iswprint aaabbc_table) 99).length = 2 ∧
    ((tree.code_of (tree.huffman_codes pq iswprint aaabbc_table) 97 = [48] ∧
        (tree.code_of (tree.huffman_codes pq iswprint aaabbc_table) 98).head? = some 49 ∧
        (tree.code_of (tree.huffman_codes pq iswprint aaabbc_table) 99).head? = some 49) ∨
      (tree.code_of (tree.huffman_codes pq iswprint aaabbc_table) 97 = [49] ∧
        (tree.code_of (tree.huffman_codes pq iswprint aaabbc_table) 98).head? = some 48 ∧
        (tree.code_of (tree.huffman_codes pq iswprint aaabbc_table) 99).head? = some 48)) ∧
    (compress_file aaabbc (tree.huffman_codes pq iswprint aaabbc_table)).length = 9 := by
  unfold tree.huffman_codes
  rcases aaabbc_roots pq iswprint ha hb hc with h | h
  · rw [h]
    decide
  · rw [h]
    decide

theorem aaabbc_scenario_witness :
    (ascii_print 97 = true ∧ ascii_print 98 = true ∧ ascii_print 99 = true) ∧
    tree.leaf_count (tree.build_huffman_tree list_queue ascii_print aaabbc_table) = 3 ∧
    (compress_file aaabbc (tree.huffman_codes list_queue ascii_print aaabbc_table)).length = 9 :=
  ⟨⟨by decide, by decide, by decide⟩,
    (aaabbc_scenario list_queue ascii_print (by decide) (by decide) (by decide)).1,
    (aaabbc_scenario list_queue ascii_print (by decide) (by decide) (by decide)).2.2.2.2.2⟩

/-! ## Invariants of the built tree -/

namespace tree

theorem merge_step_explicit (pq : priority_queue) (q : pq.Q) (h : 1 < pq.size q) :
    pq.top q ∈ pq.contents q ∧
    (∀ x ∈ pq.contents q, (pq.top q).frequency ≤ x.frequency) ∧
    pq.top (pq.pop q) ∈ (pq.contents q).erase (pq.top q) ∧
    (∀ x ∈ (pq.contents q).erase (pq.top q), (pq.top (pq.pop q)).frequency ≤ x.frequency) ∧
    pq.contents (merge_step pq q) =
      node.mk 0 (int_wrap ((pq.top q).frequency + (pq.top (pq.pop q)).frequency))
          (pq.top q) (pq.top (pq.pop q)) ::ₘ
        ((pq.contents q).erase (pq.top q)).erase (pq.top (pq.pop q)) := by
  rw [pq.size_eq] at h
  have hne : pq.contents q ≠ 0 := by
    intro h0; rw [h0] at h; simp at h
  have hl := pq.top_mem q hne
  have hpop := pq.contents_pop q hne
  have hne1 : pq.contents (pq.pop q) ≠ 0 := by
    intro h0
    have hc : Multiset.card (pq.contents (pq.pop q)) = 0 := by rw [h0]; rfl
    rw [hpop] at hc
    have := Multiset.card_erase_add_one hl
    omega
  have hr := pq.top_mem (pq.pop q) hne1
  have hpop1 := pq.contents_pop (pq.pop q) hne1
  refine ⟨hl, ?_, ?_, ?_, ?_⟩
  · intro x hx
    have := pq.top_first q x hx
    simpa [compare] using this
  · rw [← hpop]; exact hr
  · intro x hx
    rw [← hpop] at hx
    have := pq.top_first (pq.pop q) x hx
    simpa [compare] using this
  · show pq.contents (pq.push (pq.pop (pq.pop q)) _) = _
    rw [pq.contents_push, hpop1, hpop]
    rfl

/-- Invariant of the merge loop for the node fields: every queued tree is
proper and satisfies the weight invariant and the order of children. -/
theorem fields_invariant (pq : priority_queue) (iswprint : wchar_t → Bool)
    (frequencies : Nat → Int) :
    (symbols iswprint frequencies = [] →
      build_huffman_tree pq iswprint frequencies = node.nullptr) ∧
    (symbols iswprint frequencies ≠ [] →
      proper (build_huffman_tree pq iswprint frequencies) ∧
      weight_invariant frequencies (build_huffman_tree pq iswprint frequencies) = true ∧
      children_ordered (build_huffman_tree pq iswprint frequencies) = true) := by
  have h := build_huffman_tree_spec pq iswprint frequencies
    (fun M => ∀ t ∈ M, proper t ∧ weight_invariant frequencies t = true ∧
      children_ordered t = true)
    (by
      intro M M' hM hm
      obtain ⟨l, r, rest, rfl, rfl, hlmin, -⟩ := merge_of_decomp M M' hm
      intro t ht
      rcases Multiset.mem_cons.1 ht with rfl | ht
      · obtain ⟨hpl, hwl, hol⟩ := hM l (by simp)
        obtain ⟨hpr, hwr, hor⟩ := hM r (by simp)
        have hlne := proper_ne_nullptr l hpl
        have hle : l.frequency ≤ r.frequency := hlmin r (by simp)
        refine ⟨proper.internal _ _ _ hpl hpr, ?_, ?_⟩
        · simp [weight_invariant, hlne, hwl, hwr]
        · simp [children_ordered, hlne, hol, hor, hle]
      · exact hM t (by simp [ht]))
    (by
      intro t ht
      simp only [Multiset.mem_coe, List.mem_map] at ht
      obtain ⟨i, _, rfl⟩ := ht
      exact ⟨proper.leaf _ _, by simp [create_node, weight_invariant],
        by simp [create_node, children_ordered]⟩)
  exact ⟨h.1, fun hs => h.2 hs _ (Multiset.mem_singleton_self _)⟩

/-- C15: in every tree returned by `build_huffman_tree`, every leaf holds the
table count of its symbol, and every internal node holds the no-symbol value `0`
and the sum, in 32-bit `int` arithmetic, of the frequency fields of its two
children. -/
theorem build_huffman_tree_weight_invariant (pq : priority_queue)
    (iswprint : wchar_t → Bool) (frequencies : Nat → Int) :
    weight_invariant frequencies (build_huffman_tree pq iswprint frequencies) = true := by
  by_cases hs : symbols iswprint frequencies = []
  · rw [(fields_invariant pq iswprint frequencies).1 hs]
    rfl
  · exact ((fields_invariant pq iswprint frequencies).2 hs).2.1

/-- C16: at every iteration of the merge loop (the queue holds more than one
node), the first node removed has the least frequency of the queue and becomes
the left child, the second has the least frequency of the rest and becomes the
right child of the node pushed; and in every built tree the left child of
every internal node has a frequency at most that of the right child. -/
theorem merge_order (pq : priority_queue) (iswprint : wchar_t → Bool)
    (frequencies : Nat → Int) :
    (∀ q : pq.Q, 1 < pq.size q →
      pq.top q ∈ pq.contents q ∧
      (∀ x ∈ pq.contents q, (pq.top q).frequency ≤ x.frequency) ∧
      pq.top (pq.pop q) ∈ (pq.contents q).erase (pq.top q) ∧
      (∀ x ∈ (pq.contents q).erase (pq.top q), (pq.top (pq.pop q)).frequency ≤ x.frequency) ∧
      pq.contents (merge_step pq q) =
        node.mk 0 (int_wrap ((pq.top q).frequency + (pq.top (pq.pop q)).frequency))
            (pq.top q) (pq.top (pq.pop q)) ::ₘ
          ((pq.contents q).erase (pq.top q)).erase (pq.top (pq.pop q))) ∧
    children_ordered (build_huffman_tree pq iswprint frequencies) = true := by
  refine ⟨fun q hq => merge_step_explicit pq q hq, ?_⟩
  by_cases hs : symbols iswprint frequencies = []
  · rw [(fields_invariant pq iswprint frequencies).1 hs]
    rfl
  · exact ((fields_invariant pq iswprint frequencies).2 hs).2.2

theorem merge_order_witness :
    1 < list_queue.size
      [create_node 98 2, create_node 99 1, create_node 97 3] ∧
    list_queue.top [create_node 98 2, create_node 99 1, create_node 97 3] = create_node 99 1 ∧
    list_queue.top (list_queue.pop [create_node 98 2, create_node 99 1, create_node 97 3]) =
      create_node 98 2 ∧
    list_queue.contents
        (merge_step list_queue [create_node 98 2, create_node 99 1, create_node 97 3]) =
      node.mk 0
          (int_wrap ((list_queue.top
              [create_node 98 2, create_node 99 1, create_node 97 3]).frequency +
            (list_queue.top (list_queue.pop
              [create_node 98 2, create_node 99 1, create_node 97 3])).frequency))
          (list_queue.top [create_node 98 2, create_node 99 1, create_node 97 3])
          (list_queue.top (list_queue.pop
            [create_node 98 2, create_node 99 1, create_node 97 3])) ::ₘ
        ((list_queue.contents [create_node 98 2, create_node 99 1, create_node 97 3]).erase
          (list_queue.top [create_node 98 2, create_node 99 1, create_node 97 3])).erase
          (list_queue.top (list_queue.pop
            [create_node 98 2, create_node 99 1, create_node 97 3])) :=
  ⟨by decide, by decide, by decide,
    ((merge_order list_queue ascii_print aaabbc_table).1
      [create_node 98 2, create_node 99 1, create_node 97 3] (by decide)).2.2.2.2⟩

theorem merge_loop_count_eq (pq : priority_queue) (fuel : Nat) (q : pq.Q)
    (hf : pq.size q ≤ fuel + 1) :
    merge_loop_count pq fuel q = pq.size q - 1 ∧
      pq.size (merge_loop pq fuel q) = min (pq.size q) 1 := by
  induction fuel generalizing q with
  | zero =>
    rw [merge_loop_count, merge_loop]
    omega
  | succ n ih =>
    rw [merge_loop_count, merge_loop]
    split_ifs with hs
    · have hc := merge_of_card _ _ (merge_step_spec pq q hs)
      rw [← pq.size_eq, ← pq.size_eq] at hc
      obtain ⟨h1, h2⟩ := ih (merge_step pq q) (by omega)
      rw [h1, h2]
      omega
    · omega

theorem merge_loop_fuel (pq : priority_queue) (fuel fuel' : Nat) (q : pq.Q)
    (hf : pq.size q ≤ fuel + 1) (hf' : pq.size q ≤ fuel' + 1) :
    merge_loop pq fuel q = merge_loop pq fuel' q := by
  induction fuel generalizing fuel' q with
  | zero =>
    rw [merge_loop, merge_loop_of_size_le_one pq fuel' q (by omega)]
  | succ n ih =>
    cases fuel' with
    | zero => rw [merge_loop, merge_loop_of_size_le_one pq (n + 1) q (by omega)]
    | succ m =>
      rw [merge_loop, merge_loop]
      split_ifs with hs
      · have hc := merge_of_card _ _ (merge_step_spec pq q hs)
        rw [← pq.size_eq, ← pq.size_eq] at hc
        exact ih m (merge_step pq q) (by omega) (by omega)
      · rfl

theorem build_eq_of_contents (pq : priority_queue) (iswprint : wchar_t → Bool)
    (frequencies : Nat → Int) (t : node)
    (h : pq.contents (merge_loop pq
      (pq.size (push_leaves pq iswprint frequencies (List.range UNICODE_RANGE) pq.init))
      (push_leaves pq iswprint frequencies (List.range UNICODE_RANGE) pq.init)) = {t}) :
    build_huffman_tree pq iswprint frequencies = t := by
  unfold build_huffman_tree
  have hs1 : pq.size (merge_loop pq
      (pq.size (push_leaves pq iswprint frequencies (List.range UNICODE_RANGE) pq.init))
      (push_leaves pq iswprint frequencies (List.range UNICODE_RANGE) pq.init)) = 1 := by
    rw [pq.size_eq, h]; rfl
  simp only [hs1]
  rw [if_neg (by decide)]
  exact top_of_singleton pq _ _ h

/-- C17: for every frequency table with `k ≥ 1` symbols of positive count, the
merge loop stops after exactly `k - 1` iterations, for every bound of at least
`k - 1` on their number, with exactly one node in the queue, and that node is
the root returned. -/
theorem merge_loop_terminates (pq : priority_queue) (iswprint : wchar_t → Bool)
    (frequencies : Nat → Int) (hnn : ∀ i, 0 ≤ frequencies i)
    (hk : 1 ≤ ((Finset.range UNICODE_RANGE).filter
      (fun i => iswprint i = true ∧ 0 < frequencies i)).card) :
    (∀ fuel, ((Finset.range UNICODE_RANGE).filter
        (fun i => iswprint i = true ∧ 0 < frequencies i)).card - 1 ≤ fuel →
      merge_loop_count pq fuel
          (push_leaves pq iswprint frequencies (List.range UNICODE_RANGE) pq.init) =
        ((Finset.range UNICODE_RANGE).filter
          (fun i => iswprint i = true ∧ 0 < frequencies i)).card - 1 ∧
      pq.size (merge_loop pq fuel
        (push_leaves pq iswprint frequencies (List.range UNICODE_RANGE) pq.init)) = 1 ∧
      pq.contents (merge_loop pq fuel
        (push_leaves pq iswprint frequencies (List.range UNICODE_RANGE) pq.init)) =
          {build_huffman_tree pq iswprint frequencies}) := by
  have hlen := symbols_length iswprint frequencies hnn
  rw [← hlen] at hk ⊢
  have hc := contents_initial pq iswprint frequencies
  have hsz : pq.size (push_leaves pq iswprint frequencies (List.range UNICODE_RANGE) pq.init)
      = (symbols iswprint frequencies).length := by
    rw [pq.size_eq, hc, Multiset.coe_card, List.length_map]
  have hne : symbols iswprint frequencies ≠ [] := by
    intro h0; rw [h0] at hk; simp at hk
  intro fuel hfuel
  obtain ⟨h1, h2⟩ := merge_loop_count_eq pq fuel _ (by rw [hsz]; omega)
  rw [hsz] at h1 h2
  have hsize1 : pq.size (merge_loop pq fuel
      (push_leaves pq iswprint frequencies (List.range UNICODE_RANGE) pq.init)) = 1 := by
    rw [h2]; omega
  refine ⟨h1, hsize1, ?_⟩
  obtain ⟨t, -, ht⟩ := merge_loop_possible pq fuel _ _ hc
    (by rw [List.length_map]; omega) (by simpa using hne)
  have hfuel_eq := merge_loop_fuel pq fuel
    (pq.size (push_leaves pq iswprint frequencies (List.range UNICODE_RANGE) pq.init))
    (push_leaves pq iswprint frequencies (List.range UNICODE_RANGE) pq.init)
    (by rw [hsz]; omega) (by omega)
  rw [ht]
  rw [hfuel_eq] at ht
  rw [build_eq_of_contents pq iswprint frequencies t ht]

end tree

theorem aaabbc_card :
    ((Finset.range tree.UNICODE_RANGE).filter
      (fun i => ascii_print i = true ∧ 0 < aaabbc_table i)).card = 3 := by
  rw [← tree.symbols_length ascii_print aaabbc_table aaabbc_table_nonneg, aaabbc_symbols]
  rfl

theorem merge_loop_terminates_witness :
    ((∀ i, 0 ≤ aaabbc_table i) ∧
      1 ≤ ((Finset.range tree.UNICODE_RANGE).filter
        (fun i => ascii_print i = true ∧ 0 < aaabbc_table i)).card) ∧
    (((Finset.range tree.UNICODE_RANGE).filter
        (fun i => ascii_print i = true ∧ 0 < aaabbc_table i)).card - 1 ≤ 2 →
      tree.merge_loop_count list_queue 2
          (tree.push_leaves list_queue ascii_print aaabbc_table
            (List.range tree.UNICODE_RANGE) list_queue.init) =
        ((Finset.range tree.UNICODE_RANGE).filter
          (fun i => ascii_print i = true ∧ 0 < aaabbc_table i)).card - 1 ∧
      list_queue.size (tree.merge_loop list_queue 2
        (tree.push_leaves list_queue ascii_print aaabbc_table
          (List.range tree.UNICODE_RANGE) list_queue.init)) = 1 ∧
      list_queue.contents (tree.merge_loop list_queue 2
        (tree.push_leaves list_queue ascii_print aaabbc_table
          (List.range tree.UNICODE_RANGE) list_queue.init)) =
          {tree.build_huffman_tree list_queue ascii_print aaabbc_table}) :=
  ⟨⟨aaabbc_table_nonneg, by rw [aaabbc_card]; decide⟩,
    tree.merge_loop_terminates list_queue ascii_print aaabbc_table aaabbc_table_nonneg
      (by rw [aaabbc_card]; decide) 2⟩

/-! ## Shape, depth and code lengths -/

namespace tree

theorem proper_counts (t : node) (h : proper t) :
    internal_count t + 1 = leaf_count t ∧ depth t + 1 ≤ leaf_count t ∧ full t = true := by
  induction h with
  | leaf v f => simp [internal_count, leaf_count, depth, full]
  | internal f l r hl hr ihl ihr =>
    have hlne := proper_ne_nullptr l hl
    have hrne := proper_ne_nullptr r hr
    obtain ⟨il, dl, fl⟩ := ihl
    obtain ⟨ir, dr, fr⟩ := ihr
    refine ⟨?_, ?_, ?_⟩
    · simp only [internal_count, leaf_count, hlne, false_and, if_false]
      omega
    · simp only [depth, leaf_count, hlne, false_and, if_false]
      have := max_le (a := depth l) (b := depth r) (c := leaf_count l + leaf_count r - 2)
        (by omega) (by omega)
      omega
    · simp [full, hlne, hrne, fl, fr]

theorem leaf_at_length_le (t : node) (c : wstring) (s : wchar_t) (h : leaf_at t c s) :
    c.length ≤ depth t := by
  induction h with
  | here v f => simp
  | go_left v f l r p s h ih =>
    have hl : l ≠ node.nullptr := by
      intro h0; rw [h0] at h; cases h
    simp only [depth, hl, false_and, if_false, List.length_cons]
    have := le_max_left (depth l) (depth r)
    omega
  | go_right v f l r p s h ih =>
    have hr : r ≠ node.nullptr := by
      intro h0; rw [h0] at h; cases h
    simp only [depth, hr, and_false, if_false, List.length_cons]
    have := le_max_right (depth l) (depth r)
    omega

theorem depth_build_le (pq : priority_queue) (iswprint : wchar_t → Bool)
    (frequencies : Nat → Int) :
    depth (build_huffman_tree pq iswprint frequencies) ≤
      (symbols iswprint frequencies).length - 1 := by
  by_cases hs : symbols iswprint frequencies = []
  · rw [(build_huffman_tree_leaves pq iswprint frequencies).1 hs]
    simp [depth]
  · have hp := ((build_huffman_tree_leaves pq iswprint frequencies).2 hs).1
    have := (proper_counts _ hp).2.1
    rw [leaf_count_build] at this
    omega

/-- C19: every node of a tree returned by `build_huffman_tree` has either no
child or two children, the tree (when not null) is made of leaves as created by
the first loop and of merge nodes over two such trees, and its number of
internal nodes is its number of leaves less one. -/
theorem build_huffman_tree_full (pq : priority_queue) (iswprint : wchar_t → Bool)
    (frequencies : Nat → Int) :
    full (build_huffman_tree pq iswprint frequencies) = true ∧
    (build_huffman_tree pq iswprint frequencies = node.nullptr ∨
      proper (build_huffman_tree pq iswprint frequencies)) ∧
    internal_count (build_huffman_tree pq iswprint frequencies) =
      leaf_count (build_huffman_tree pq iswprint frequencies) - 1 := by
  by_cases hs : symbols iswprint frequencies = []
  · rw [(build_huffman_tree_leaves pq iswprint frequencies).1 hs]
    exact ⟨rfl, Or.inl rfl, rfl⟩
  · have hp := ((build_huffman_tree_leaves pq iswprint frequencies).2 hs).1
    obtain ⟨h1, -, h3⟩ := proper_counts _ hp
    exact ⟨h3, Or.inr hp, by omega⟩

end tree

theorem skew_table_symbols : tree.symbols ascii_print skew_table = [97, 98, 99, 100, 101] := by
  apply tree.symbols_eq
  · decide
  · intro i
    simp only [skew_table, ascii_print, tree.UNICODE_RANGE, List.mem_cons, List.mem_singleton,
      List.not_mem_nil, or_false, decide_eq_true_eq]
    constructor
    · rintro (rfl | rfl | rfl | rfl | rfl) <;> simp
    · rintro ⟨_, h, _⟩
      by_contra hne
      simp only [not_or] at hne
      simp [hne.1, hne.2.1, hne.2.2.1, hne.2.2.2.1, hne.2.2.2.2] at h

theorem skew_table_nonneg : ∀ i, 0 ≤ skew_table i := by
  intro i
  unfold skew_table
  split_ifs <;> decide

theorem skew_table_depth (pq : tree.priority_queue) :
    tree.depth (tree.build_huffman_tree pq ascii_print skew_table) = 4 := by
  have h := tree.build_huffman_tree_possible pq ascii_print skew_table _ skew_table_symbols
    (by decide)
  have hall : ∀ t ∈ tree.possible_roots 5
      ([97, 98, 99, 100, 101].map (fun i => tree.create_node i (skew_table i))),
      tree.depth t = 4 := by
    decide
  exact hall _ h

namespace tree

/-- C18: for every frequency table, with `k` its number of symbols of positive
count, the depth of the built tree and the length of every generated code are
at most `k - 1`; and the bound is reached: the table with the pairwise distinct
counts 1, 2, 4, 8, 16 has `k = 5` symbols and, for every queue implementation,
a built tree of depth 4. -/
theorem depth_bound (pq : priority_queue) (iswprint : wchar_t → Bool)
    (frequencies : Nat → Int) (hnn : ∀ i, 0 ≤ frequencies i) :
    depth (build_huffman_tree pq iswprint frequencies) ≤
      ((Finset.range UNICODE_RANGE).filter
        (fun i => iswprint i = true ∧ 0 < frequencies i)).card - 1 ∧
    (∀ s c, (huffman_codes pq iswprint frequencies).find s = some c →
      c.length ≤ ((Finset.range UNICODE_RANGE).filter
        (fun i => iswprint i = true ∧ 0 < frequencies i)).card - 1) ∧
    (((Finset.range UNICODE_RANGE).filter
        (fun i => ascii_print i = true ∧ 0 < skew_table i)).card = 5 ∧
      (∀ i ∈ symbols ascii_print skew_table, ∀ j ∈ symbols ascii_print skew_table,
        i ≠ j → skew_table i ≠ skew_table j) ∧
      ∀ pq' : priority_queue, depth (build_huffman_tree pq' ascii_print skew_table) = 4) := by
  rw [← symbols_length iswprint frequencies hnn]
  refine ⟨depth_build_le pq iswprint frequencies, ?_, ?_, ?_, skew_table_depth⟩
  · intro s c hc
    rw [huffman_codes_find_iff] at hc
    exact le_trans (leaf_at_length_le _ _ _ hc) (depth_build_le pq iswprint frequencies)
  · rw [← symbols_length ascii_print skew_table skew_table_nonneg, skew_table_symbols]
    rfl
  · rw [skew_table_symbols]
    decide

theorem depth_bound_witness :
    (∀ i, 0 ≤ aaabbc_table i) ∧
    depth (build_huffman_tree list_queue ascii_print aaabbc_table) ≤
      ((Finset.range UNICODE_RANGE).filter
        (fun i => ascii_print i = true ∧ 0 < aaabbc_table i)).card - 1 :=
  ⟨aaabbc_table_nonneg,
    (depth_bound list_queue ascii_print aaabbc_table aaabbc_table_nonneg).1⟩

end tree

/-! ## Frequencies and code lengths -/

namespace tree

theorem leaf_info_depths (t : node) (pfx : wstring) :
    (leaf_info t pfx).map (fun e => e.2.2.length) =
      (leaf_depths t).map (fun d => d + pfx.length) := by
  induction t generalizing pfx with
  | nullptr => rfl
  | mk v f l r ihl ihr =>
    simp only [leaf_info, leaf_depths, List.map_append, ihl, ihr, List.map_map,
      List.length_append, List.length_singleton]
    have hfun : ((fun d => d + pfx.length) ∘ fun d => d + 1) = fun d => d + (pfx.length + 1) := by
      funext d
      simp only [Function.comp]
      omega
    rw [hfun]
    split_ifs <;> simp

theorem proper_realizable (t : node) (h : proper t) : realizable (leaf_depths t) := by
  induction h with
  | leaf v f => simpa [leaf_depths] using realizable.single
  | internal f l r hl hr ihl ihr =>
    have hlne := proper_ne_nullptr l hl
    simp only [leaf_depths, hlne, false_and, if_false, List.nil_append]
    exact realizable.join _ _ ihl ihr

/-- The assignment of depths to weights read off a tree. -/
theorem tree_assignment (t : node) :
    ((leaf_info t []).map (fun e => (e.2.1, e.2.2.length))).map Prod.snd = leaf_depths t ∧
    ((leaf_info t []).map (fun e => (e.2.1, e.2.2.length))).map Prod.fst =
      (leaves t).map Prod.snd ∧
    pcost ((leaf_info t []).map (fun e => (e.2.1, e.2.2.length))) = cost t := by
  refine ⟨?_, ?_, ?_⟩
  · rw [List.map_map]
    have h := leaf_info_depths t []
    simp only [List.length_nil, Nat.add_zero, List.map_id'] at h
    exact h
  · rw [List.map_map, ← leaf_info_leaves t [], List.map_map]
    rfl
  · unfold pcost cost
    have hc := cost_at_eq_sum t []
    rw [List.length_nil] at hc
    rw [hc, List.map_map]
    rfl

/-- Exchanging the depths of a heavier, deeper leaf and a lighter, shallower
leaf lowers the cost of an assignment. -/
theorem pcost_swap_lt (R : List (Int × Nat)) (wa wb : Int) (da db : Nat)
    (hw : wb < wa) (hd : db < da) :
    pcost ((wa, db) :: (wb, da) :: R) < pcost ((wa, da) :: (wb, db) :: R) := by
  simp only [pcost_cons]
  have hd' : (db : Int) < (da : Int) := by exact_mod_cast hd
  nlinarith [mul_pos (sub_pos.2 hw) (sub_pos.2 hd')]

theorem leaf_info_entry (pq : priority_queue) (iswprint : wchar_t → Bool)
    (frequencies : Nat → Int) (a : wchar_t) (ha : a ∈ symbols iswprint frequencies) :
    ∃ e ∈ leaf_info (build_huffman_tree pq iswprint frequencies) [],
      e.1 = a ∧ e.2.1 = frequencies a ∧
      code_of (huffman_codes pq iswprint frequencies) a = e.2.2 := by
  have hsym : a ∈ leaf_symbols (build_huffman_tree pq iswprint frequencies) :=
    (leaf_symbols_perm pq iswprint frequencies).mem_iff.2 ha
  rw [← leaf_info_symbols _ []] at hsym
  obtain ⟨e, he, rfl⟩ := List.mem_map.1 hsym
  refine ⟨e, he, rfl, ?_, ?_⟩
  · have h1 : (e.1, e.2.1) ∈ leaves (build_huffman_tree pq iswprint frequencies) := by
      rw [← leaf_info_leaves _ []]
      exact List.mem_map_of_mem (fun e => (e.1, e.2.1)) he
    have := (leaves_perm pq iswprint frequencies).mem_iff.1 h1
    obtain ⟨i, _, hi⟩ := List.mem_map.1 this
    simp only [Prod.mk.injEq] at hi
    rw [← hi.2, hi.1]
  · have h2 : (e.1, e.2.2) ∈ leaf_paths (build_huffman_tree pq iswprint frequencies) [] := by
      rw [← leaf_info_paths _ []]
      exact List.mem_map_of_mem (fun e => (e.1, e.2.2)) he
    have h3 : unordered_map.find (leaf_paths (build_huffman_tree pq iswprint frequencies) [])
        e.1 = some e.2.2 :=
      (find_eq_some_iff _ (by rw [leaf_paths_fst]; exact leaf_symbols_nodup pq iswprint frequencies)
        _ _).2 h2
    rw [huffman_codes_eq]
    simp [code_of, h3]

/-- C20 (as amended): for every frequency table of non-negative counts that add
up to less than `2 ^ 31` and every two symbols `a` and `b` of positive count, if
`frequency(a) > frequency(b)` then the generated code of `a` is no longer than
the generated code of `b`. -/
theorem heavier_symbol_shorter_code (pq : priority_queue) (iswprint : wchar_t → Bool)
    (frequencies : Nat → Int) (hnn : ∀ i, 0 ≤ frequencies i)
    (hsum : ((symbols iswprint frequencies).map frequencies).sum < 2 ^ 31)
    (a b : wchar_t)
    (ha : a < UNICODE_RANGE ∧ iswprint a = true ∧ 0 < frequencies a)
    (hb : b < UNICODE_RANGE ∧ iswprint b = true ∧ 0 < frequencies b)
    (hab : frequencies a > frequencies b) :
    (code_of (huffman_codes pq iswprint frequencies) a).length ≤
      (code_of (huffman_codes pq iswprint frequencies) b).length := by
  have hsa : a ∈ symbols iswprint frequencies :=
    (mem_symbols iswprint frequencies a).2 ⟨ha.1, ne_of_gt ha.2.2, ha.2.1⟩
  have hsb : b ∈ symbols iswprint frequencies :=
    (mem_symbols iswprint frequencies b).2 ⟨hb.1, ne_of_gt hb.2.2, hb.2.1⟩
  obtain ⟨ea, hea, ha1, ha2, ha3⟩ := leaf_info_entry pq iswprint frequencies a hsa
  obtain ⟨eb, heb, hb1, hb2, hb3⟩ := leaf_info_entry pq iswprint frequencies b hsb
  rw [ha3, hb3]
  by_contra hlt
  have hlt' : eb.2.2.length < ea.2.2.length := not_le.1 hlt
  have hne : eb ≠ ea := by
    intro h
    rw [h, ha1] at hb1
    rw [hb1] at hab
    exact lt_irrefl _ hab
  have hs : symbols iswprint frequencies ≠ [] := List.ne_nil_of_mem hsa
  have hproper := ((build_huffman_tree_leaves pq iswprint frequencies).2 hs).1
  obtain ⟨hsnd, hfst, hcost⟩ := tree_assignment (build_huffman_tree pq iswprint frequencies)
  obtain ⟨I1, hI1⟩ := exists_perm_cons_of_mem ea _ hea
  have heb1 : eb ∈ I1 := by
    rcases List.mem_cons.1 (hI1.mem_iff.1 heb) with h | h
    · exact absurd h hne
    · exact h
  obtain ⟨I2, hI2⟩ := exists_perm_cons_of_mem eb I1 heb1
  have hI : (leaf_info (build_huffman_tree pq iswprint frequencies) []).Perm
      (ea :: eb :: I2) := hI1.trans (hI2.cons _)
  have hP := hI.map (fun e : wchar_t × Int × wstring => (e.2.1, e.2.2.length))
  simp only [List.map_cons] at hP
  rw [ha2, hb2] at hP
  have hreal : realizable
      (((frequencies a, eb.2.2.length) :: (frequencies b, ea.2.2.length) ::
        I2.map (fun e : wchar_t × Int × wstring => (e.2.1, e.2.2.length))).map Prod.snd) := by
    refine realizable.perm _ _ ?_ (proper_realizable _ hproper)
    rw [← hsnd]
    refine (hP.map Prod.snd).trans ?_
    simp only [List.map_cons]
    exact List.Perm.swap _ _ _
  have hweights :
      (((frequencies a, eb.2.2.length) :: (frequencies b, ea.2.2.length) ::
        I2.map (fun e : wchar_t × Int × wstring => (e.2.1, e.2.2.length))).map Prod.fst).Perm
        ((symbols iswprint frequencies).map frequencies) := by
    have h1 := (hP.map Prod.fst).symm
    simp only [List.map_cons] at h1 ⊢
    refine h1.trans ?_
    rw [hfst]
    have h2 := (leaves_perm pq iswprint frequencies).map Prod.snd
    rw [List.map_map] at h2
    exact h2
  have hle := cost_build_le pq iswprint frequencies hnn hsum _ hreal hweights
  have hlt2 := pcost_swap_lt
    (I2.map (fun e : wchar_t × Int × wstring => (e.2.1, e.2.2.length)))
    (frequencies a) (frequencies b) ea.2.2.length eb.2.2.length hab hlt'
  rw [← pcost_perm _ _ hP, hcost] at hlt2
  exact absurd hle (not_le.2 hlt2)

end tree

theorem heavier_symbol_shorter_code_witness :
    ((∀ i, 0 ≤ aaabbc_table i) ∧
      ((tree.symbols ascii_print aaabbc_table).map aaabbc_table).sum < 2 ^ 31 ∧
      (97 < tree.UNICODE_RANGE ∧ ascii_print 97 = true ∧ 0 < aaabbc_table 97) ∧
      (98 < tree.UNICODE_RANGE ∧ ascii_print 98 = true ∧ 0 < aaabbc_table 98) ∧
      aaabbc_table 97 > aaabbc_table 98) ∧
    (tree.code_of (tree.huffman_codes list_queue ascii_print aaabbc_table) 97).length ≤
      (tree.code_of (tree.huffman_codes list_queue ascii_print aaabbc_table) 98).length :=
  ⟨⟨aaabbc_table_nonneg, aaabbc_sum, by decide, by decide, by decide⟩,
    tree.heavier_symbol_shorter_code list_queue ascii_print aaabbc_table aaabbc_table_nonneg
      aaabbc_sum 97 98 (by decide) (by decide) (by decide)⟩

theorem heavy_table_symbols : tree.symbols ascii_print heavy_table = [97, 98, 99, 100, 101] := by
  apply tree.symbols_eq
  · decide
  · intro i
    simp only [heavy_table, ascii_print, tree.UNICODE_RANGE, List.mem_cons, List.mem_singleton,
      List.not_mem_nil, or_false, decide_eq_true_eq]
    constructor
    · rintro (rfl | rfl | rfl | rfl | rfl) <;> simp
    · rintro ⟨_, h, _⟩
      by_contra hne
      simp only [not_or] at hne
      simp [hne.1, hne.2.1, hne.2.2.1, hne.2.2.2.1, hne.2.2.2.2] at h

theorem heavy_table_bounds : ∀ i, 0 ≤ heavy_table i ∧ heavy_table i < 2 ^ 31 := by
  intro i
  unfold heavy_table
  split_ifs <;> norm_num

theorem heavy_table_codes (pq : tree.priority_queue) :
    tree.huffman_codes pq ascii_print heavy_table =
      [(99, [48, 48, 48]), (100, [48, 48, 49]), (101, [48, 49]), (97, [49, 48]),
        (98, [49, 49])] := by
  have h := tree.build_huffman_tree_possible pq ascii_print heavy_table _ heavy_table_symbols
    (by decide)
  have hall : ∀ t ∈ tree.possible_roots 5
      ([97, 98, 99, 100, 101].map (fun i => tree.create_node i (heavy_table i))),
      tree.generate_codes t [] [] =
        [(99, [48, 48, 48]), (100, [48, 48, 49]), (101, [48, 49]), (97, [49, 48]),
          (98, [49, 49])] := by
    decide
  exact hall _ h

/-- C20 (counterexample): in the table with the counts 10 for `a` and
`2 ^ 30`, `2 ^ 30 + 1`, `2 ^ 30 + 2`, `2 ^ 30 + 3` for `b`, `c`, `d`, `e`, all
positive and representable, the merge of `c` and `d` adds up to `2 ^ 31 + 3`,
which wraps to a negative weight; for every queue implementation the code of
`c`, counted `2 ^ 30 + 1` times, has three bits and the code of `a`, counted 10
times, has two. -/
theorem heavier_symbol_longer_code_on_overflow :
    (∀ i, 0 ≤ heavy_table i ∧ heavy_table i < 2 ^ 31) ∧
    (99 < tree.UNICODE_RANGE ∧ ascii_print 99 = true ∧ 0 < heavy_table 99) ∧
    (97 < tree.UNICODE_RANGE ∧ ascii_print 97 = true ∧ 0 < heavy_table 97) ∧
    heavy_table 99 > heavy_table 97 ∧
    ∀ pq : tree.priority_queue,
      (tree.code_of (tree.huffman_codes pq ascii_print heavy_table) 99).length = 3 ∧
      (tree.code_of (tree.huffman_codes pq ascii_print heavy_table) 97).length = 2 ∧
      ¬ (tree.code_of (tree.huffman_codes pq ascii_print heavy_table) 99).length ≤
        (tree.code_of (tree.huffman_codes pq ascii_print heavy_table) 97).length := by
  refine ⟨heavy_table_bounds, by decide, by decide, by decide, fun pq => ?_⟩
  rw [heavy_table_codes pq]
  decide
